import Mathlib

/-!
Shallow embedding of the shift-assignment engine of this repository
(`src/app/api/generate/route.ts`, the daily planner) and of the night/on-call
rotation engine (`src/app/api/night/route.ts`), together with theorems
settling the frozen claims about them.

Modelling conventions:
* Dates are integers (days since a Sunday epoch), so the JavaScript
  `Date` arithmetic `+1 day` / `getDay()` maps to `+1` / `emod 7`
  (`0` = Sunday, `6` = Saturday), and the `"YYYY-MM-DD"` strings used as map
  keys are replaced by the integers themselves (the formatter is injective).
* JavaScript `Set`s become lists without duplicates kept in insertion order;
  objects used as string-keyed maps become total functions with a default
  (`[]`, `0`, `none`), which matches the engine's `|| 0`, `|| []`,
  missing-key checks.
* `Math.random()` picks are derandomised by an injectable stream
  `rngF : Nat → Nat` consumed one value per pick; a pick over a nonempty list
  `l` takes index `rngF i % l.length`.  Every concrete run of the program
  corresponds to some stream.
* The Excel/report writes (worksheet cells) and the Firestore reads are the
  out-of-scope adapters of the spec; only the computation of
  `staffAssignments` and of the counters/maps is embedded.  Firestore writes
  made by the night engine (`arrayUnion`) are kept as an append-only log.
-/

set_option maxHeartbeats 1000000
set_option maxRecDepth 100000

namespace WS

/-! ## JS `Set` / stable `sort` utilities -/

/-- Insert a name into a JS-`Set`-like list: append only when absent,
preserving insertion order. -/
def insertNew (l : List String) (n : String) : List String :=
  if n ∈ l then l else l ++ [n]

/-- Delete a name from a JS-`Set`-like list (`Set.prototype.delete`). -/
def removeName (l : List String) (n : String) : List String :=
  l.filter (fun m => m != n)

/-- Build a JS `Set` from a list of names: deduplicate keeping first-insertion
order (`new Set(arr)`). -/
def mkSet (l : List String) : List String := l.foldl insertNew []

/-- Stable insertion for modelling the stable JavaScript
`Array.prototype.sort` with an ascending numeric comparator. -/
def insOrd {α : Type} (key : α → Int) (x : α) : List α → List α
  | [] => [x]
  | y :: l => if key y < key x then y :: insOrd key x l else x :: y :: l

/-- Stable ascending sort by an integer key
(models `arr.sort((a, b) => key(a) - key(b))`). -/
def sortByKey {α : Type} (key : α → Int) (l : List α) : List α :=
  l.foldr (insOrd key) []

/-- Total list indexing with a fallback (the index is always in bounds in
the modelled code, where it is `Math.floor(Math.random() * length)`). -/
def nth {α : Type} (c : α) : List α → Nat → α
  | [], _ => c
  | x :: _, 0 => x
  | _ :: t, j + 1 => nth c t j

/-- Random pick among the candidates holding the minimum counter value
(the `minCount` / `finalCandidates` / `Math.floor(Math.random() * len)`
pattern); `c` is the head of the nonempty candidate list `cl`. -/
def pickMin {α : Type} (cnt : α → Nat) (r : Nat) (c : α) (cl : List α) : α :=
  let m := (cl.map cnt).foldl Nat.min (cnt c)
  let finals := cl.filter (fun x => cnt x == m)
  nth c finals (r % finals.length)

/-- Uniform random pick from a nonempty candidate list `cl` with head `c`
(the dependent-target phase has no fairness counter). -/
def pickRand {α : Type} (r : Nat) (c : α) (cl : List α) : α :=
  nth c cl (r % cl.length)

/-! ## Calendar service -/

/-- Day-of-week of an integer day number: `0` = Sunday … `6` = Saturday. -/
def wkday (d : Int) : Int := d.emod 7

/-- Model of `d.getDay()===0 || d.getDay()===6 || await isJapaneseHoliday(d)`:
Saturday, Sunday, or externally designated holiday. -/
def isOffDay (hol : Int → Bool) (d : Int) : Bool :=
  wkday d == 0 || wkday d == 6 || hol d

/-- Fuel-bounded business-day search shared by `getNextBusinessDay` and
`getPreviousBusinessDay`: step one day at a time (`step` is `+1` or `-1`);
at most 10 candidate days are examined and `none` models the `null` return
of the exhausted `attempts < 10` loop. -/
def seekBusiness (hol : Int → Bool) (step : Int) : Nat → Int → Option Int
  | 0, _ => none
  | n + 1, cur =>
    if isOffDay hol cur then seekBusiness hol step n (cur + step) else some cur

/-- Next business day after `d`, skipping weekends/holidays, 10 tries. -/
def getNextBusinessDay (hol : Int → Bool) (d : Int) : Option Int :=
  seekBusiness hol 1 10 (d + 1)

/-- Previous business day before `d`, skipping weekends/holidays, 10 tries. -/
def getPreviousBusinessDay (hol : Int → Bool) (d : Int) : Option Int :=
  seekBusiness hol (-1) 10 (d - 1)

/-- Model of `getDatesInMonth`: the month's days as consecutive integers
starting at `first`. -/
def getDatesInMonth (first : Int) (len : Nat) : List Int :=
  (List.range len).map (fun k : Nat => first + (k : Int))

/-- Monday of the week of `d` (the `diffForMonday` computation:
Sunday maps back 6 days, otherwise `1 - getDay()`). -/
def mondayOf (d : Int) : Int :=
  d + (if wkday d = 0 then -6 else 1 - wkday d)

/-- First working day of `d`'s week: scan Monday..`d` for the first
non-weekend, non-holiday day (the weekly-sticky block's `firstWeekday`). -/
def firstWorkingOfWeek (hol : Int → Bool) (d : Int) : Option Int :=
  ((List.range ((d - mondayOf d).toNat + 1)).map
      (fun k => mondayOf d + (k : Int))).find? (fun x => !isOffDay hol x)

/-! ## Data model of the daily planner (`generate/route.ts`) -/

/-- `PositionData` of the generate route.  `outputCell` is a report-writer
coordinate with no influence on the computed assignments and is omitted.
`dependence` is `none` for the absent/blank (`trim() === ""`) field. -/
structure Pos where
  id : String
  name : String
  priority : Int
  required : Bool
  sameStaffWeekly : Bool
  allowMultiple : Bool
  staffSeveral : Bool
  horidayToday : Bool
  horidayTomorrow : Bool
  dependence : Option String
  departments : List String
deriving DecidableEq

/-- `StaffData` of the generate route.  The dynamic per-position-name
special-assignment-date fields (`staffIndexable[pos.name]`) are modelled by
the function `special` from a position name to the list of dates. -/
structure Staff where
  id : String
  name : String
  availablePositions : List String
  holidaysYukyu : List Int
  holidaysFurikyu : List Int
  holidaysDaikyu : List Int
  departments : List String
  special : String → List Int

/-- Input of one invocation of the generate `POST` handler: the collections
read from the store, the requested month (`first`/`len`), the optional
department filter, the external holiday predicate and the randomness
stream. -/
structure GenInput where
  positions : List Pos
  staffAll : List Staff
  department : Option String
  hol : Int → Bool
  rngF : Nat → Nat
  first : Int
  len : Nat

/-- Department filtering of positions (`positions.filter(... includes(department))`). -/
def filteredPositions (inp : GenInput) : List Pos :=
  match inp.department with
  | none => inp.positions
  | some dep => inp.positions.filter (fun p => p.departments.contains dep)

/-- Department filtering of staff. -/
def filteredStaff (inp : GenInput) : List Staff :=
  match inp.department with
  | none => inp.staffAll
  | some dep => inp.staffAll.filter (fun s => s.departments.contains dep)

/-- The filtered positions sorted ascending by `priority` (stable). -/
def sortedPositions (inp : GenInput) : List Pos :=
  sortByKey (fun p => p.priority) (filteredPositions inp)

/-- The non-leave positions (`!pos.name.startsWith("休み")`), in priority order. -/
def normalPositions (inp : GenInput) : List Pos :=
  (sortedPositions inp).filter (fun p => !p.name.startsWith "休み")

/-- Ids of independent positions referenced by some position's `dependence`
(`referencedIndependentIds`). -/
def referencedIds (inp : GenInput) : List String :=
  mkSet ((normalPositions inp).filterMap (fun p => p.dependence))

/-- Names of the filtered staff on a given kind of leave on date `d`
(the `holidayStaffYukyu`/`Furikyu`/`Daikyu` lists, reduced to names: the
engine only ever compares their `name` fields). -/
def leaveNames (sel : Staff → List Int) (fs : List Staff) (d : Int) : List String :=
  (fs.filter (fun s => (sel s).contains d)).map (fun s => s.name)

/-! ## Maps with defaults -/

/-- Append a name to the assignment list of `(d, pid)`
(`staffAssignments[dateStr][pos.id].push(n)`). -/
def appendAsg (a : Int → String → List String) (d : Int) (pid : String)
    (n : String) : Int → String → List String :=
  fun d' p' => if d' = d ∧ p' = pid then a d' p' ++ [n] else a d' p'

/-- Add a name to a per-date name-set map (`specialHolidays[d].add(n)`). -/
def addName (m : Int → List String) (d : Int) (n : String) : Int → List String :=
  fun d' => if d' = d then insertNew (m d) n else m d'

/-- Overwrite a per-date name set (`preCalc[d] = new Set([n])`). -/
def setNames (m : Int → List String) (d : Int) (l : List String) :
    Int → List String :=
  fun d' => if d' = d then l else m d'

/-- Increment a pair-keyed counter (`counts[pid][name] = (… || 0) + 1`). -/
def bumpP (f : String × String → Nat) (k : String × String) :
    String × String → Nat :=
  fun k' => if k' = k then f k + 1 else f k'

/-! ## Pre-calculation of the month's special-holiday sets -/

/-- One staff member's contribution to `preCalcSpecialHolidays` on date `d`
for position `p`.  Note the faithful quirk: the `horidayTomorrow` branches
*overwrite* the next business day's set with a singleton. -/
def preCalcStaffStep (hol : Int → Bool) (d : Int) (p : Pos)
    (m : Int → List String) (t : Staff) : Int → List String :=
  if (t.special p.name).contains d then
    if p.horidayToday && p.horidayTomorrow then
      let m1 := addName m d t.name
      match getNextBusinessDay hol d with
      | some nb => setNames m1 nb [t.name]
      | none => m1
    else if p.horidayToday then addName m d t.name
    else if p.horidayTomorrow then
      match getNextBusinessDay hol d with
      | some nb => setNames m nb [t.name]
      | none => m
    else m
  else m

/-- `preCalcSpecialHolidays` for one date: every normal position crossed with
every staff member (the pre-calculation loops over the unfiltered staff list). -/
def preCalcDay (hol : Int → Bool) (nps : List Pos) (staffAll : List Staff)
    (m : Int → List String) (d : Int) : Int → List String :=
  nps.foldl (fun m' p => staffAll.foldl (preCalcStaffStep hol d p) m') m

/-- The whole-month `preCalcSpecialHolidays` map. -/
def preCalcAll (inp : GenInput) : Int → List String :=
  (getDatesInMonth inp.first inp.len).foldl
    (preCalcDay inp.hol (normalPositions inp) inp.staffAll) (fun _ => [])

/-! ## Planner state -/

/-- Mutable state of the generate run that survives from one date to the
next: weekly-sticky maps, the per-date/per-position assignment lists, both
fairness counter spaces, the special-holiday sets and the randomness
cursor. -/
structure GState where
  weekly : Int × String → Option String
  prevWeekly : Int × String → Option String
  curWeekStart : Option Int
  asg : Int → String → List String
  sevCnt : String × String → Nat
  nrmCnt : String × String → Nat
  spHol : Int → List String
  ridx : Nat

/-- The pristine state at the start of a run. -/
def initGState : GState :=
  { weekly := fun _ => none
    prevWeekly := fun _ => none
    curWeekStart := none
    asg := fun _ _ => []
    sevCnt := fun _ => 0
    nrmCnt := fun _ => 0
    spHol := fun _ => []
    ridx := 0 }

/-- Week-boundary bookkeeping at the top of each date's processing: when the
week's Monday changes, the weekly-sticky map is archived into
`prevWeeklyAssignments` and reset. -/
def weekReset (st : GState) (d : Int) : GState :=
  if st.curWeekStart = some (mondayOf d) then st
  else
    { st with
      prevWeekly := st.weekly
      weekly := fun _ => none
      curWeekStart := some (mondayOf d) }

/-! ## Special/override phase -/

/-- Result of the special/override phase: the updated global state plus the
`specialAssigned` and `specialAssignedTomorrowOnly` name sets of the date. -/
structure SpecialOut where
  g : GState
  assigned : List String
  tomorrowOnly : List String

/-- One (position, staff) check of the special/override phase.  A staff
member whose dynamic special-date field for `p.name` contains `d` is pushed
into `p`'s list (deduplicated), and the position's `horidayToday` /
`horidayTomorrow` flags feed the `specialHolidays` sets — the tomorrow-leave
uses the literal next calendar day (`date.getTime() + 86400000`). -/
def specialStaffStep (d : Int) (p : Pos) (so : SpecialOut) (t : Staff) :
    SpecialOut :=
  if (t.special p.name).contains d then
    if t.name ∈ so.assigned then so
    else
      let a1 := if t.name ∈ so.g.asg d p.id then so.g.asg
                else appendAsg so.g.asg d p.id t.name
      if p.horidayToday && p.horidayTomorrow then
        let g1 := { so.g with
          asg := a1
          spHol := addName (addName so.g.spHol d t.name) (d + 1) t.name }
        ⟨g1, insertNew so.assigned t.name, so.tomorrowOnly⟩
      else if p.horidayToday then
        let g1 := { so.g with asg := a1, spHol := addName so.g.spHol d t.name }
        ⟨g1, insertNew so.assigned t.name, so.tomorrowOnly⟩
      else if p.horidayTomorrow then
        let g1 := { so.g with asg := a1, spHol := addName so.g.spHol (d + 1) t.name }
        ⟨g1, so.assigned, insertNew so.tomorrowOnly t.name⟩
      else
        ⟨{ so.g with asg := a1 }, so.assigned, so.tomorrowOnly⟩
  else so

/-- The special/override phase of date `d`: every normal position crossed
with every staff member of the *unfiltered* staff list. -/
def specialPhase (staffAll : List Staff) (nps : List Pos) (st : GState)
    (d : Int) : SpecialOut :=
  nps.foldl (fun so p => staffAll.foldl (specialStaffStep d p) so)
    ⟨st, [], []⟩

/-! ## The retry-loop phases -/

/-- Everything that stays fixed during one date's retry loop. -/
structure DayCtx where
  d : Int
  normalPos : List Pos
  refIds : List String
  fStaff : List Staff
  hol : Int → Bool
  rngF : Nat → Nat
  preCalc : Int → List String
  hyN : List String
  hfN : List String
  hdN : List String
  spHolD : List String
  specialAssigned : List String
  specialTomorrow : List String

/-- Per-attempt state: the global state plus the day's available pool and
the two already-assigned-today sets. -/
structure AState where
  g : GState
  avail : List String
  dailyA : List String
  dailySev : List String

/-- The sentinel pushed when a position finds no candidate:
`"未配置"` (UNFILLED) when required, the empty string otherwise. -/
def sentinel (p : Pos) : String := if p.required then "未配置" else ""

/-- Phase ④, `staffSeveral` quota assignment, for one position.  Candidates
must be able to work the position, not already hold a `staffSeveral` slot
today, not be on any leave today, not be special-assigned-tomorrow-only, and
still be in the available pool; the least-used (in the `staffSeveral`
counter space) wins, random tie-break.  The winner is recorded in
`dailyAssignedSeveral` only — it is *not* removed from `availableStaff`. -/
def quotaStep (ctx : DayCtx) (a : AState) (p : Pos) : AState :=
  if p.dependence.isSome then a
  else if p.id ∈ ctx.refIds then a
  else if !p.staffSeveral then a
  else
    let cands := (ctx.fStaff.filter (fun s =>
      s.availablePositions.contains p.name &&
      !(a.dailySev.contains s.name) &&
      !(ctx.hyN.contains s.name) && !(ctx.hfN.contains s.name) &&
      !(ctx.hdN.contains s.name) &&
      !(ctx.specialTomorrow.contains s.name) &&
      a.avail.contains s.name)).map (fun s => s.name)
    match cands with
    | [] =>
      { a with g := { a.g with asg := appendAsg a.g.asg ctx.d p.id (sentinel p) } }
    | c :: cs =>
      let chosen := pickMin (fun n => a.g.sevCnt (p.id, n))
        (ctx.rngF a.g.ridx) c (c :: cs)
      { a with
        g := { a.g with
          asg := appendAsg a.g.asg ctx.d p.id chosen
          sevCnt := bumpP a.g.sevCnt (p.id, chosen)
          ridx := a.g.ridx + 1 }
        dailySev := insertNew a.dailySev chosen }

/-- Phase ①, dependent-position assignment, for one position.  The last
staff name of the dependence target's previous-business-day list is copied
(and removed from the pool / marked daily-assigned); a missing or empty
prior-day list yields the `"未配置"` sentinel regardless of `required`. -/
def depStep (ctx : DayCtx) (a : AState) (p : Pos) : AState :=
  match p.dependence with
  | none => a
  | some q =>
    match getPreviousBusinessDay ctx.hol ctx.d with
    | none =>
      { a with g := { a.g with asg := appendAsg a.g.asg ctx.d p.id "未配置" } }
    | some pb =>
      match (a.g.asg pb q).getLast? with
      | none =>
        { a with g := { a.g with asg := appendAsg a.g.asg ctx.d p.id "未配置" } }
      | some v =>
        { a with
          g := { a.g with asg := appendAsg a.g.asg ctx.d p.id v }
          avail := removeName a.avail v
          dailyA := insertNew a.dailyA v }

/-- The weekly-sticky reuse decision (`alreadyAssignedName`): the recorded
sticky name of the current week's first working day is offered for reuse
when it is truthy, differs from `prevWeeklyAssignments[weekKey]` (the
previous week's map looked up at the *current* week's key), is not on leave
today and is not special-holidayed today. -/
def weeklyReuse (ctx : DayCtx) (a : AState) (p : Pos) : Option String :=
  match firstWorkingOfWeek ctx.hol ctx.d with
  | none => none
  | some f =>
    match a.g.weekly (f, p.id) with
    | none => none
    | some v =>
      if v ≠ "" ∧ a.g.prevWeekly (f, p.id) ≠ some v ∧
         ¬ (ctx.hyN.contains v) ∧ ¬ (ctx.hfN.contains v) ∧
         ¬ (ctx.hdN.contains v) ∧ ¬ (ctx.spHolD.contains v)
      then some v else none

/-- Weekly-sticky phase (block A), for one position with
`sameStaffWeekly && !staffSeveral` and no dependence: reuse the recorded
name when offered and not already assigned today, otherwise fall through to
a fresh least-used pick, recorded as the week's sticky value when today is
the week's first working day. -/
def weeklyStep (ctx : DayCtx) (a : AState) (p : Pos) : AState :=
  if p.dependence.isSome then a
  else if !p.sameStaffWeekly then a
  else if p.staffSeveral then a
  else
    match weeklyReuse ctx a p with
    | some v =>
      if v ∈ a.dailyA then
        weeklyFresh ctx a p (firstWorkingOfWeek ctx.hol ctx.d)
      else
        { a with
          g := { a.g with asg := appendAsg a.g.asg ctx.d p.id v }
          dailyA := insertNew a.dailyA v
          avail := removeName a.avail v }
    | none => weeklyFresh ctx a p (firstWorkingOfWeek ctx.hol ctx.d)
where
  /-- The fresh greedy pick of the weekly-sticky phase (its `else` branch). -/
  weeklyFresh (ctx : DayCtx) (a : AState) (p : Pos) (fw : Option Int) : AState :=
    let cands := (ctx.fStaff.filter (fun s =>
      s.availablePositions.contains p.name &&
      a.avail.contains s.name &&
      !(a.dailyA.contains s.name))).map (fun s => s.name)
    match cands with
    | [] =>
      { a with g := { a.g with asg := appendAsg a.g.asg ctx.d p.id (sentinel p) } }
    | c :: cs =>
      let chosen := pickMin (fun n => a.g.nrmCnt (p.id, n))
        (ctx.rngF a.g.ridx) c (c :: cs)
      let wk' : (Int × String) → Option String :=
        match fw with
        | some f =>
          if ctx.d = f then
            fun k => if k = (f, p.id) then some chosen else a.g.weekly k
          else a.g.weekly
        | none => a.g.weekly
      { a with
        g := { a.g with
          asg := appendAsg a.g.asg ctx.d p.id chosen
          nrmCnt := bumpP a.g.nrmCnt (p.id, chosen)
          weekly := wk'
          ridx := a.g.ridx + 1 }
        dailyA := insertNew a.dailyA chosen
        avail := removeName a.avail chosen }

/-- Phase ②, assignment of referenced independent positions, for one
position with no dependence whose id occurs in `referencedIndependentIds`.
Candidates must additionally be free on the next business day (per the
pre-calculated special holidays and the three leave sets); the pick is
uniformly random with no fairness counter. -/
def indepStep (ctx : DayCtx) (a : AState) (p : Pos) : AState :=
  if p.dependence.isSome then a
  else if p.id ∉ ctx.refIds then a
  else
    let nb := getNextBusinessDay ctx.hol ctx.d
    let spN := match nb with | some x => ctx.preCalc x | none => []
    let yN := match nb with
      | some x => leaveNames (fun s => s.holidaysYukyu) ctx.fStaff x
      | none => []
    let fN := match nb with
      | some x => leaveNames (fun s => s.holidaysFurikyu) ctx.fStaff x
      | none => []
    let dN := match nb with
      | some x => leaveNames (fun s => s.holidaysDaikyu) ctx.fStaff x
      | none => []
    let cands := (ctx.fStaff.filter (fun s =>
      s.availablePositions.contains p.name &&
      a.avail.contains s.name &&
      !(a.dailyA.contains s.name) &&
      !(spN.contains s.name) && !(yN.contains s.name) &&
      !(fN.contains s.name) && !(dN.contains s.name))).map (fun s => s.name)
    match cands with
    | [] =>
      { a with g := { a.g with asg := appendAsg a.g.asg ctx.d p.id (sentinel p) } }
    | c :: cs =>
      let chosen := pickRand (ctx.rngF a.g.ridx) c (c :: cs)
      { a with
        g := { a.g with
          asg := appendAsg a.g.asg ctx.d p.id chosen
          ridx := a.g.ridx + 1 }
        dailyA := insertNew a.dailyA chosen
        avail := removeName a.avail chosen }

/-- Phase ③, standard greedy assignment, for one independent,
non-referenced, non-weekly, non-`staffSeveral` position: least-used in the
standard counter space, random tie-break. -/
def stdStep (ctx : DayCtx) (a : AState) (p : Pos) : AState :=
  if p.dependence.isSome then a
  else if p.id ∈ ctx.refIds then a
  else if p.sameStaffWeekly then a
  else if p.staffSeveral then a
  else
    let cands := (ctx.fStaff.filter (fun s =>
      s.availablePositions.contains p.name &&
      a.avail.contains s.name &&
      !(a.dailyA.contains s.name))).map (fun s => s.name)
    match cands with
    | [] =>
      { a with g := { a.g with asg := appendAsg a.g.asg ctx.d p.id (sentinel p) } }
    | c :: cs =>
      let chosen := pickMin (fun n => a.g.nrmCnt (p.id, n))
        (ctx.rngF a.g.ridx) c (c :: cs)
      { a with
        g := { a.g with
          asg := appendAsg a.g.asg ctx.d p.id chosen
          nrmCnt := bumpP a.g.nrmCnt (p.id, chosen)
          ridx := a.g.ridx + 1 }
        dailyA := insertNew a.dailyA chosen
        avail := removeName a.avail chosen }

/-- Fallback for one leftover staff member: force them into the first
position (in priority order) that is not `staffSeveral`, that they can
work, and that has room (`allowMultiple` or currently empty). -/
def fallbackStep (ctx : DayCtx) (a : AState) (t : Staff) : AState :=
  let candPos := ctx.normalPos.filter (fun p =>
    !p.staffSeveral &&
    t.availablePositions.contains p.name &&
    (p.allowMultiple || (a.g.asg ctx.d p.id).isEmpty))
  match candPos with
  | [] => a
  | cp :: _ =>
    { a with
      g := { a.g with asg := appendAsg a.g.asg ctx.d cp.id t.name }
      dailyA := insertNew a.dailyA t.name
      avail := removeName a.avail t.name }

/-- Fallback phase: the leftover pool, resolved to staff objects and sorted
ascending (stably) by how many positions they can work, is forced into
remaining slots. -/
def fallbackPhase (ctx : DayCtx) (a : AState) : AState :=
  if a.avail.isEmpty then a
  else
    let stillUn := sortByKey (fun s => (s.availablePositions.length : Int))
      (a.avail.filterMap (fun n => ctx.fStaff.find? (fun s => s.name == n)))
    stillUn.foldl (fallbackStep ctx) a

/-! ## One attempt and the retry loop -/

/-- Reset of the current date's per-position lists from the loop-entry
snapshot (`staffAssignments[dateStr][pos.id] = [...preserved[pos.id]]`). -/
def resetAsg (ids : List String) (d : Int) (pres : String → List String)
    (a : Int → String → List String) : Int → String → List String :=
  fun d' p => if d' = d ∧ p ∈ ids then pres p else a d' p

/-- The attempt-start available pool: all filtered staff names minus the
three leave lists, today's special holidays and the specially assigned. -/
def initAvail (ctx : DayCtx) : List String :=
  ctx.specialAssigned.foldl removeName
    (ctx.spHolD.foldl removeName
      (ctx.hdN.foldl removeName
        (ctx.hfN.foldl removeName
          (ctx.hyN.foldl removeName (mkSet (ctx.fStaff.map (fun s => s.name)))))))

/-- One attempt of the retry loop: reset the date's lists from the snapshot,
re-derive the pool, then run (in the source's order) the `staffSeveral`
quota phase, the dependency phase, the weekly-sticky phase, the
referenced-independent phase, the standard greedy phase and the fallback.
The boolean is the attempt's validity (`availableStaff.size === 0`). -/
def runAttempt (ctx : DayCtx) (pres : String → List String) (g : GState) :
    GState × Bool :=
  let g0 := { g with
    asg := resetAsg (ctx.normalPos.map (fun p => p.id)) ctx.d pres g.asg }
  let a0 : AState := ⟨g0, initAvail ctx, [], []⟩
  let a6 := fallbackPhase ctx
    (ctx.normalPos.foldl (stdStep ctx)
      (ctx.normalPos.foldl (indepStep ctx)
        (ctx.normalPos.foldl (weeklyStep ctx)
          (ctx.normalPos.foldl (depStep ctx)
            (ctx.normalPos.foldl (quotaStep ctx) a0)))))
  (a6.g, a6.avail.isEmpty)

/-- The bounded retry loop (`maxRetries = 10`): stop at the first valid
attempt, otherwise keep the last attempt's state (counters are *not*
restored between attempts; only the per-date lists are re-reset inside
`runAttempt`). -/
def retryLoop (ctx : DayCtx) (pres : String → List String) :
    Nat → GState → GState
  | 0, g => g
  | n + 1, g =>
    let r := runAttempt ctx pres g
    if r.2 then r.1 else retryLoop ctx pres n r.1

/-! ## One date, and the whole run -/

/-- Processing of one date: week-boundary bookkeeping, the special/override
phase, then — unless the date is a Saturday/Sunday/holiday, in which case
processing stops with the special phase's output — the 10-attempt retry
loop.  (The `unassignedStaff` set computed between the special phase and the
skip check in the source is never read afterwards and has no effect; the
per-date Excel cell writes are report-adapter output.) -/
def processDay (inp : GenInput) (pre : Int → List String) (st : GState)
    (d : Int) : GState :=
  let st1 := weekReset st d
  let so := specialPhase inp.staffAll (normalPositions inp) st1 d
  if isOffDay inp.hol d then so.g
  else
    let ctx : DayCtx :=
      { d := d
        normalPos := normalPositions inp
        refIds := referencedIds inp
        fStaff := filteredStaff inp
        hol := inp.hol
        rngF := inp.rngF
        preCalc := pre
        hyN := leaveNames (fun s => s.holidaysYukyu) (filteredStaff inp) d
        hfN := leaveNames (fun s => s.holidaysFurikyu) (filteredStaff inp) d
        hdN := leaveNames (fun s => s.holidaysDaikyu) (filteredStaff inp) d
        spHolD := so.g.spHol d
        specialAssigned := so.assigned
        specialTomorrow := so.tomorrowOnly }
    retryLoop ctx (fun pid => so.g.asg d pid) 10 so.g

/-- The whole generate run (the computational core of the `POST` handler):
pre-calculate the month's special holidays, then process the month's dates
in chronological order. -/
def runGenerate (inp : GenInput) : GState :=
  (getDatesInMonth inp.first inp.len).foldl
    (processDay inp (preCalcAll inp)) initGState

/-! ## Night/on-call rotation engine (`night/route.ts`) -/

/-- `PositionData` of the night route (fields the engine reads). -/
structure NPos where
  id : String
  name : String
  priority : Int
  departments : List String
deriving DecidableEq

/-- `StaffData` of the night route; `experience` is `none` when the field is
absent or not a number (`typeof staff.experience === "number"`). -/
structure NStaff where
  id : String
  name : String
  departments : List String
  experience : Option Int
deriving DecidableEq

/-- Rotation-engine state threaded across the whole month range: department
counters, per-(department, staff) counters, last-assignment dates, the
randomness cursor, and the log of Firestore `arrayUnion` writes
(staff id, position name, date). -/
structure NState where
  counters : String → Nat
  staffCounters : String → Nat
  lastAssigned : String → Option Int
  ridx : Nat
  writes : List (String × String × Int)

/-- Increment a string-keyed counter by `inc`. -/
def bumpS (f : String → Nat) (k : String) (inc : Nat) : String → Nat :=
  fun k' => if k' = k then f k + inc else f k'

/-- Update the last-assigned map. -/
def setLast (f : String → Option Int) (k : String) (d : Int) :
    String → Option Int :=
  fun k' => if k' = k then some d else f k'

/-- Assignment map of one date (`{ [posId]: string }`): an insertion-ordered
association list with overriding writes, mirroring a JS object. -/
def setA (m : List (String × String)) (k v : String) : List (String × String) :=
  if m.any (fun e => e.1 == k) then
    m.map (fun e => if e.1 == k then (k, v) else e)
  else m ++ [(k, v)]

/-- Merge of two assignment objects (`{ ...a, ...b }`). -/
def mergeA (a b : List (String × String)) : List (String × String) :=
  b.foldl (fun m kv => setA m kv.1 kv.2) a

/-- Candidate departments: departments of staff who work `二交代` (two-shift)
or `待機` (standby), excluding those two tags themselves and the day-duty
tags `日直主` / `日直副`; insertion-ordered set. -/
def candidateDepts (staffL : List NStaff) : List String :=
  staffL.foldl (fun acc t =>
    if t.departments.contains "二交代" || t.departments.contains "待機" then
      t.departments.foldl (fun acc2 dep =>
        if dep = "日直主" ∨ dep = "日直副" then acc2
        else if dep ≠ "二交代" ∧ dep ≠ "待機" then insertNew acc2 dep
        else acc2) acc
    else acc) []

/-- Counter key of the night rotation: `休日前` (pre-holiday) prefixed when
the following day is a weekend/holiday. -/
def nightKey (nextHol : Bool) (posName dept : String) : String :=
  (if nextHol then "休日前" ++ posName else posName) ++ "|" ++ dept

/-- Fixed context of the night engine. -/
structure NightCtx where
  hol : Int → Bool
  rngF : Nat → Nat
  staffL : List NStaff
  nightPos : List NPos
  nichokuPos : List NPos

/-- One position of `assignNightShift`'s loop.  The accumulator carries the
engine state, the date's assignment object, the date's already-chosen
departments (`生理` is exempt from the exclusion) and the trace of selected
departments (one entry per position, `none` when no candidate department
existed). -/
def nightStep (ctx : NightCtx) (d : Int) (nextHol curHol : Bool)
    (acc : NState × List (String × String) × List String × List (Option String))
    (p : NPos) :
    NState × List (String × String) × List String × List (Option String) :=
  let (st, asg, aDepts, trace) := acc
  let cand := (candidateDepts ctx.staffL).filter (fun dep =>
    !((nextHol || curHol) && dep == "微生物") &&
    !(dep != "生理" && aDepts.contains dep))
  match cand with
  | [] => (st, setA asg p.id "未配置", aDepts, trace ++ [none])
  | c :: cs =>
    let dept := pickMin (fun dep => st.counters (nightKey nextHol p.name dep))
      (ctx.rngF st.ridx) c (c :: cs)
    let inc : Nat := if dept = "生理" then 1 else if dept = "輸血" then 3 else 2
    let st1 : NState := { st with
      counters := bumpS st.counters (nightKey nextHol p.name dept) inc
      ridx := st.ridx + 1 }
    let aDepts1 := if dept ≠ "生理" then insertNew aDepts dept else aDepts
    let elig := ctx.staffL.filter (fun t =>
      t.departments.contains dept && t.departments.contains p.name &&
      (match st1.lastAssigned t.id with
       | none => true
       | some la => decide (3 ≤ d - la)))
    match elig with
    | [] => (st1, setA asg p.id "未配置", aDepts1, trace ++ [some dept])
    | e :: es =>
      let chosen := pickMin (fun t => st1.staffCounters (dept ++ "|" ++ t.id))
        (ctx.rngF st1.ridx) e (e :: es)
      let st2 : NState := { st1 with
        staffCounters := bumpS st1.staffCounters (dept ++ "|" ++ chosen.id) 1
        lastAssigned := setLast st1.lastAssigned chosen.id d
        ridx := st1.ridx + 1
        writes := st1.writes ++ [(chosen.id, p.name, d)] }
      (st2, setA asg p.id chosen.name, aDepts1, trace ++ [some dept])

/-- `assignNightShift`: per date, for each night position in priority order,
select a least-used candidate department (pre-holiday counter space when the
next day is off; `微生物` excluded on holiday-adjacent dates; non-`生理`
departments excluded once already chosen today), then the least-used
eligible staff member of that department not assigned within the prior
3 calendar days.  Also returns the department-selection trace. -/
def assignNightShift (ctx : NightCtx) (d : Int) (st : NState) :
    NState × List (String × String) × List (Option String) :=
  let nextHol := isOffDay ctx.hol (d + 1)
  let curHol := isOffDay ctx.hol d
  let r := ctx.nightPos.foldl (nightStep ctx d nextHol curHol) (st, [], [], [])
  (r.1, r.2.1, r.2.2.2)

/-- Allowed departments of the day-duty (`日直`) rotation per position name. -/
def nichokuAllowed (posName : String) (cd : List String) : List String :=
  if posName = "日直副" then ["生理", "病理"]
  else if posName = "日直主" then ["病理", "輸血", "生化学", "血液"]
  else cd

/-- One position of `assignNichokuShift`'s loop: like the night rotation but
with plain counter keys (`name|dept|`), position-specific allowed
departments, department-specific increments (`生理` +1, `日直副`×`病理` +4,
`輸血` +3, else +2), and no 3-day recency filter on staff. -/
def nichokuStep (ctx : NightCtx) (d : Int)
    (acc : NState × List (String × String)) (p : NPos) :
    NState × List (String × String) :=
  let (st, asg) := acc
  let cd := candidateDepts ctx.staffL
  let cand := cd.filter (fun dep => (nichokuAllowed p.name cd).contains dep)
  match cand with
  | [] => (st, setA asg p.id "未配置")
  | c :: cs =>
    let dept := pickMin (fun dep => st.counters (p.name ++ "|" ++ dep ++ "|"))
      (ctx.rngF st.ridx) c (c :: cs)
    let inc : Nat :=
      if dept = "生理" then 1
      else if p.name = "日直副" ∧ dept = "病理" then 4
      else if dept = "輸血" then 3
      else 2
    let st1 : NState := { st with
      counters := bumpS st.counters (p.name ++ "|" ++ dept ++ "|") inc
      ridx := st.ridx + 1 }
    let elig := ctx.staffL.filter (fun t =>
      t.departments.contains dept && t.departments.contains p.name)
    match elig with
    | [] => (st1, setA asg p.id "未配置")
    | e :: es =>
      let chosen := pickMin (fun t => st1.staffCounters (dept ++ "|" ++ t.id))
        (ctx.rngF st1.ridx) e (e :: es)
      let st2 : NState := { st1 with
        staffCounters := bumpS st1.staffCounters (dept ++ "|" ++ chosen.id) 1
        lastAssigned := setLast st1.lastAssigned chosen.id d
        ridx := st1.ridx + 1
        writes := st1.writes ++ [(chosen.id, p.name, d)] }
      (st2, setA asg p.id chosen.name)

/-- `assignNichokuShift` over the day-duty positions. -/
def assignNichokuShift (ctx : NightCtx) (d : Int) (st : NState) :
    NState × List (String × String) :=
  ctx.nichokuPos.foldl (nichokuStep ctx d) (st, [])

/-- One attempt of a date in the rotation engine's retry loop: the night
rotation, plus — on weekends/holidays with day-duty positions configured —
the day-duty rotation merged over it. -/
def runDateAttempt (ctx : NightCtx) (d : Int) (st : NState) :
    NState × List (String × String) :=
  let r := assignNightShift ctx d st
  if isOffDay ctx.hol d ∧ ctx.nichokuPos ≠ [] then
    let r2 := assignNichokuShift ctx d r.1
    (r2.1, mergeA r.2.1 r2.2)
  else (r.1, r.2.1)

/-- Total experience of a date's assignments: `未配置` entries are skipped,
other names are resolved against the staff list and contribute their
numeric experience value. -/
def totalExp (staffL : List NStaff) (asg : List (String × String)) : Int :=
  asg.foldl (fun tot kv =>
    if kv.2 ≠ "未配置" then
      match staffL.find? (fun s => s.name == kv.2) with
      | some s => match s.experience with | some e => tot + e | none => tot
      | none => tot
    else tot) 0

/-- Restore of the three backed-up maps after a failed attempt
(`counters = countersBackup` etc.); the randomness cursor and the Firestore
write log are not rolled back. -/
def restoreN (base cur : NState) : NState :=
  { counters := base.counters
    staffCounters := base.staffCounters
    lastAssigned := base.lastAssigned
    ridx := cur.ridx
    writes := cur.writes }

/-- The per-date retry loop of the rotation engine (`MAX_ATTEMPTS = 3`):
accept the attempt as soon as total experience reaches 5, otherwise restore
the backups and retry; the `asg` accumulator keeps the last attempt's
assignments. -/
def nightDateLoop (ctx : NightCtx) (d : Int) :
    Nat → NState → List (String × String) → NState × List (String × String)
  | 0, st, asg => (st, asg)
  | n + 1, st, _ =>
    let r := runDateAttempt ctx d st
    if 5 ≤ totalExp ctx.staffL r.2 then r
    else nightDateLoop ctx d n (restoreN st r.1) r.2

/-- Processing of one date in the rotation engine. -/
def nightProcessDate (ctx : NightCtx) (d : Int) (st : NState) :
    NState × List (String × String) :=
  nightDateLoop ctx d 3 st []

/-- Modelled from the spec's wording of the retry contract, for comparison
with the implementation: at most three attempts, each retry starting from
the pre-attempt snapshots of the department counters, staff counters and
last-assigned map (the randomness cursor and the append-only staff-record
writes advance), the first attempt meeting the experience threshold is
accepted as is, and after a third failure the last attempt's assignments
are kept over the rolled-back counter state. -/
def nightDateRetrySpec (ctx : NightCtx) (d : Int) (st : NState) :
    NState × List (String × String) :=
  let r1 := runDateAttempt ctx d st
  if 5 ≤ totalExp ctx.staffL r1.2 then r1
  else
    let r2 := runDateAttempt ctx d (restoreN st r1.1)
    if 5 ≤ totalExp ctx.staffL r2.2 then r2
    else
      let r3 := runDateAttempt ctx d (restoreN st r2.1)
      if 5 ≤ totalExp ctx.staffL r3.2 then r3
      else (restoreN st r3.1, r3.2)

/-- The rotation engine's pass over a range of dates (the month-range loop
of the night `POST` handler, with the per-month Excel sheets elided): state
accumulates across the whole range, and each date's accepted assignments
are recorded. -/
def runNightRange (ctx : NightCtx) (dates : List Int) (st : NState) :
    NState × List (Int × List (String × String)) :=
  dates.foldl (fun acc d =>
    let r := nightProcessDate ctx d acc.1
    (r.1, acc.2 ++ [(d, r.2)])) (st, [])

/-! ## Holiday provider (`getJapaneseHolidays`) -/

/-- Result of the `fetch` of the holidays-jp API: `error` covers both a
non-OK response and a thrown exception, `ok` carries the decoded JSON
record (a list of `(date, holiday-name)` pairs). -/
def FetchResult : Type := Except Unit (List (String × String))

/-- `getJapaneseHolidays` as written (identically) in both route files:
on any failure return `[]`, otherwise keep the record's keys that start
with the zero-padded `"YYYY-MM"` prefix. -/
def getJapaneseHolidays (fetched : FetchResult) (year month : Nat) :
    List String :=
  match fetched with
  | .error _ => []
  | .ok data =>
    let keyPref := toString year ++ "-" ++
      (if month < 10 then "0" ++ toString month else toString month)
    (data.map Prod.fst).filter (fun k => k.startsWith keyPref)

/-- `isJapaneseHoliday` for a date presented as its year, month and
formatted string. -/
def isJapaneseHoliday (fetched : FetchResult) (year month : Nat)
    (dateStr : String) : Bool :=
  (getJapaneseHolidays fetched year month).contains dateStr

/-- The engine-facing holiday predicate induced by a fetch outcome and a
calendar formatter (the conversion from integer days to year/month/string,
external to the claims). -/
def holPredOfFetch (fetched : FetchResult)
    (fmt : Int → Nat × Nat × String) : Int → Bool :=
  fun d => isJapaneseHoliday fetched (fmt d).1 (fmt d).2.1 (fmt d).2.2

/-! ## Derived observables used by the claim statements -/

/-- The value the dependency resolver plans for a position depending on `q`
on date `d`: the last entry of `q`'s previous-business-day list, or
`"未配置"` when the previous business day is not found or that list is
missing/empty. -/
def depSource (res : GState) (hol : Int → Bool) (d : Int) (q : String) :
    String :=
  match getPreviousBusinessDay hol d with
  | none => "未配置"
  | some pb =>
    match (res.asg pb q).getLast? with
    | none => "未配置"
    | some v => v

/-- Membership of `d` in any of a staff member's three leave-date sets. -/
@[reducible]
def onLeave (s : Staff) (d : Int) : Prop :=
  d ∈ s.holidaysYukyu ∨ d ∈ s.holidaysFurikyu ∨ d ∈ s.holidaysDaikyu

/-! ## Concrete instances used by counterexamples and witnesses -/

/-- A plain required position with default flags. -/
def pos0 (i n : String) : Pos :=
  { id := i, name := n, priority := 0, required := true
    sameStaffWeekly := false, allowMultiple := false, staffSeveral := false
    horidayToday := false, horidayTomorrow := false
    dependence := none, departments := [] }

/-- A staff member with empty leave sets and no special dates. -/
def staff0 (i n : String) (av : List String) : Staff :=
  { id := i, name := n, availablePositions := av
    holidaysYukyu := [], holidaysFurikyu := [], holidaysDaikyu := []
    departments := [], special := fun _ => [] }

/-- Month of the single Saturday `6`; staff `X` is on paid leave that day
*and* holds a special-assignment date for position `A` that day. -/
def inpC1 : GenInput :=
  { positions := [pos0 "A" "A"]
    staffAll := [{ staff0 "X" "X" ["A"] with
                   holidaysYukyu := [6]
                   special := fun pn => if pn = "A" then [6] else [] }]
    department := none, hol := fun _ => false, rngF := fun _ => 0
    first := 6, len := 1 }

/-- One working day; `P` depends on the unknown id `Q` (prior-day list
always empty) and allows multiple staff; `Y` can only work `P`. -/
def inpC2 : GenInput :=
  { positions := [{ pos0 "P" "P" with dependence := some "Q", allowMultiple := true }]
    staffAll := [staff0 "Y" "Y" ["P"]]
    department := none, hol := fun _ => false, rngF := fun _ => 0
    first := 1, len := 1 }

/-- One working day; `Z` can work no position, so every attempt leaves `Z`
unassigned and all 10 attempts run; `X` is assigned to `A` each attempt. -/
def inpC3 : GenInput :=
  { positions := [pos0 "A" "A"]
    staffAll := [staff0 "X" "X" ["A"], staff0 "Z" "Z" []]
    department := none, hol := fun _ => false, rngF := fun _ => 0
    first := 1, len := 1 }

/-- Two working days; `P` depends on `Q`, `S` is a `staffSeveral` position,
and `X` can work both `Q` and `S`. -/
def inpC4 : GenInput :=
  { positions := [{ pos0 "Q" "Q" with priority := 0 },
                  { pos0 "P" "P" with priority := 1, dependence := some "Q" },
                  { pos0 "S" "S" with priority := 2, staffSeveral := true }]
    staffAll := [staff0 "X" "X" ["Q", "S"]]
    department := none, hol := fun _ => false, rngF := fun _ => 0
    first := 1, len := 2 }

/-- Month of the single Saturday `6`; both `X` and `Y` hold a
special-assignment date for the non-`allowMultiple` position `A`. -/
def inpC5 : GenInput :=
  { positions := [pos0 "A" "A"]
    staffAll := [{ staff0 "X" "X" ["A"] with
                   special := fun pn => if pn = "A" then [6] else [] },
                 { staff0 "Y" "Y" ["A"] with
                   special := fun pn => if pn = "A" then [6] else [] }]
    department := none, hol := fun _ => false, rngF := fun _ => 0
    first := 6, len := 1 }

/-- Nine days spanning two ISO weeks (Mon 1 .. Tue 9, weekend 6/7); the
single staff member `X` is the only candidate for the `sameStaffWeekly`
position `W` in both weeks. -/
def inpC6 : GenInput :=
  { positions := [{ pos0 "W" "W" with sameStaffWeekly := true }]
    staffAll := [staff0 "X" "X" ["W"]]
    department := none, hol := fun _ => false, rngF := fun _ => 0
    first := 1, len := 9 }

/-- One working day; staff `X` is on paid leave, staff `Y` covers `A`. -/
def inpW1 : GenInput :=
  { positions := [pos0 "A" "A"]
    staffAll := [{ staff0 "X" "X" ["A"] with holidaysYukyu := [1] },
                 staff0 "Y" "Y" ["A"]]
    department := none, hol := fun _ => false, rngF := fun _ => 0
    first := 1, len := 1 }

/-- One working day; a non-`allowMultiple` position depending on the
unknown id `Q`, no staff at all. -/
def inpW2 : GenInput :=
  { positions := [{ pos0 "P" "P" with dependence := some "Q" }]
    staffAll := []
    department := none, hol := fun _ => false, rngF := fun _ => 0
    first := 1, len := 1 }

/-- One working day; a plain standard position and one staff member. -/
def inpW5 : GenInput :=
  { positions := [pos0 "A" "A"]
    staffAll := [staff0 "Y" "Y" ["A"]]
    department := none, hol := fun _ => false, rngF := fun _ => 0
    first := 1, len := 1 }

/-- A day context for Tuesday `2` with a single dependent position `P`
(dependence `Q`) and nothing else. -/
def ctxW4 : DayCtx :=
  { d := 2
    normalPos := [{ pos0 "P" "P" with dependence := some "Q" }]
    refIds := [], fStaff := [], hol := fun _ => false, rngF := fun _ => 0
    preCalc := fun _ => [], hyN := [], hfN := [], hdN := [], spHolD := []
    specialAssigned := [], specialTomorrow := [] }

/-- An attempt state whose Monday-`1` list for `Q` is `["X"]`. -/
def aW4 : AState :=
  ⟨{ initGState with
     asg := fun d' p' => if d' = 1 ∧ p' = "Q" then ["X"] else [] },
   [], [], []⟩

/-- Night context with a single `生理` member (two-shift), two night
positions and no day-duty positions. -/
def nctx10 : NightCtx :=
  { hol := fun _ => false, rngF := fun _ => 0
    staffL := [{ id := "s1", name := "S1"
                 departments := ["二交代", "生理", "N1", "N2"]
                 experience := some 10 }]
    nightPos := [{ id := "n1", name := "N1", priority := 0, departments := ["夜勤"] },
                 { id := "n2", name := "N2", priority := 1, departments := ["夜勤"] }]
    nichokuPos := [] }

/-- The pristine rotation-engine state. -/
def initN : NState :=
  { counters := fun _ => 0, staffCounters := fun _ => 0
    lastAssigned := fun _ => none, ridx := 0, writes := [] }

/-- Invariant threaded through the retry-loop phases: the name `n` is out of
the day's pool, absent from every assignment list of the current date, and
absent from every list of the previous business day. -/
def KeptOut (ctx : DayCtx) (n : String) (s : AState) : Prop :=
  n ∉ s.avail ∧ (∀ pid, n ∉ s.g.asg ctx.d pid) ∧
  (∀ pb, getPreviousBusinessDay ctx.hol ctx.d = some pb →
    ∀ pid, n ∉ s.g.asg pb pid)

/-! # Infrastructure lemmas -/

theorem foldl_rec {α σ : Type} (P : σ → Prop) {step : σ → α → σ}
    (l : List α) (s : σ) (h0 : P s)
    (hs : ∀ s' a, a ∈ l → P s' → P (step s' a)) : P (l.foldl step s) := by
  induction l generalizing s with
  | nil => exact h0
  | cons a t ih =>
    exact ih (step s a) (hs s a (List.mem_cons_self a t) h0)
      (fun s' b hb => hs s' b (List.mem_cons_of_mem a hb))

theorem mem_insertNew {l : List String} {n x : String} :
    x ∈ insertNew l n ↔ x ∈ l ∨ x = n := by
  unfold insertNew
  split
  · next h =>
    constructor
    · exact Or.inl
    · rintro (hx | rfl)
      · exact hx
      · exact h
  · simp

theorem mem_removeName {l : List String} {n x : String} :
    x ∈ removeName l n ↔ x ∈ l ∧ x ≠ n := by
  simp [removeName, List.mem_filter, bne_iff_ne]

theorem not_mem_foldl_removeName_of_not_mem {rs b : List String} {n : String}
    (h : n ∉ b) : n ∉ rs.foldl removeName b := by
  refine foldl_rec (fun l => n ∉ l) rs b h ?_
  intro l r _ hl hmem
  exact hl (mem_removeName.mp hmem).1

theorem not_mem_foldl_removeName_of_mem {rs : List String} {n : String}
    (h : n ∈ rs) : ∀ b, n ∉ rs.foldl removeName b := by
  induction rs with
  | nil => cases h
  | cons r t ih =>
    intro b
    rcases List.mem_cons.mp h with rfl | ht
    · by_cases hnt : n ∈ t
      · exact ih hnt _
      · show n ∉ t.foldl removeName (removeName b n)
        exact not_mem_foldl_removeName_of_not_mem
          (fun hm => ((mem_removeName.mp hm).2 rfl))
    · exact ih ht _

theorem mem_appendAsg {a : Int → String → List String} {d : Int}
    {pid m : String} {d' : Int} {p' x : String} :
    x ∈ appendAsg a d pid m d' p' ↔
      x ∈ a d' p' ∨ (d' = d ∧ p' = pid ∧ x = m) := by
  unfold appendAsg
  split
  · next h => simp [h.1, h.2]
  · next h =>
    constructor
    · exact Or.inl
    · rintro (hx | ⟨h1, h2, _⟩)
      · exact hx
      · exact absurd ⟨h1, h2⟩ h

theorem appendAsg_ne {a : Int → String → List String} {d : Int}
    {pid m : String} {d' : Int} {p' : String} (h : ¬(d' = d ∧ p' = pid)) :
    appendAsg a d pid m d' p' = a d' p' := by
  unfold appendAsg
  exact if_neg h

theorem nth_mem_or {α : Type} (c : α) :
    ∀ (l : List α) (j : Nat), nth c l j ∈ l ∨ nth c l j = c
  | [], j => Or.inr (by cases j <;> rfl)
  | x :: t, 0 => Or.inl (List.mem_cons_self x t)
  | x :: t, j + 1 => by
    rcases nth_mem_or c t j with h | h
    · exact Or.inl (List.mem_cons_of_mem x h)
    · exact Or.inr h

theorem pickMin_mem {α : Type} {cnt : α → Nat} {r : Nat} {c : α}
    {cl : List α} (h : c ∈ cl) : pickMin cnt r c cl ∈ cl := by
  simp only [pickMin]
  rcases nth_mem_or c _ ((r % _)) with h1 | h1
  · exact List.mem_of_mem_filter h1
  · rw [h1]; exact h

theorem pickRand_mem {α : Type} {r : Nat} {c : α} {cl : List α}
    (h : c ∈ cl) : pickRand r c cl ∈ cl := by
  simp only [pickRand]
  rcases nth_mem_or c cl (r % cl.length) with h1 | h1
  · exact h1
  · rw [h1]; exact h

theorem contains_true_iff (l : List String) (a : String) :
    l.contains a = true ↔ a ∈ l := by
  induction l with
  | nil => simp
  | cons x t ih =>
    simp only [List.contains_cons, Bool.or_eq_true, beq_iff_eq, List.mem_cons] at *
    constructor
    · rintro (rfl | h)
      · exact Or.inl rfl
      · exact Or.inr (ih.mp h)
    · rintro (rfl | h)
      · exact Or.inl rfl
      · exact Or.inr (ih.mpr h)

theorem get?_snoc {α : Type} (l : List α) (x : α) (n : Nat) :
    (l ++ [x]).get? n =
      if n < l.length then l.get? n
      else if n = l.length then some x else none := by
  split
  · next h => exact List.get?_append h
  · next h =>
    split
    · next h2 => rw [h2]; exact List.get?_concat_length l x
    · next h2 =>
      apply List.get?_eq_none.mpr
      simp only [List.length_append, List.length_cons, List.length_nil]
      omega

/-! # Claim C9: holiday provider failure is fail-open -/

/-- C9: for every (year, month) lookup in either engine, a failed holiday
fetch (non-OK response or thrown error) yields the empty holiday list,
exactly as a month with no holidays does, and both the daily planner and
the rotation engine compute identical results under the failure predicate
and the no-holiday predicate — a holiday-lookup failure never aborts
roster generation. -/
theorem holiday_lookup_fail_open (y m : Nat) (fmt : Int → Nat × Nat × String)
    (inp : GenInput) (nctx : NightCtx) (d : Int) (st : NState) :
    getJapaneseHolidays (Except.error ()) y m = [] ∧
    getJapaneseHolidays (Except.ok []) y m = [] ∧
    runGenerate { inp with hol := holPredOfFetch (Except.error ()) fmt } =
      runGenerate { inp with hol := holPredOfFetch (Except.ok []) fmt } ∧
    nightProcessDate { nctx with hol := holPredOfFetch (Except.error ()) fmt } d st =
      nightProcessDate { nctx with hol := holPredOfFetch (Except.ok []) fmt } d st := by
  have hp : holPredOfFetch (Except.error ()) fmt =
      holPredOfFetch (Except.ok []) fmt := rfl
  exact ⟨rfl, rfl, by rw [hp], by rw [hp]⟩

/-! # Claim C7: rotation-engine retry loop -/

/-- C7: the rotation engine's per-date processing equals its retry
specification: a date's combined assignments are accepted as soon as the
chosen staff's summed experience reaches the threshold; otherwise at most
three attempts run, every retry starting from the pre-attempt snapshots of
the department counters, staff counters and last-assigned map; after the
third failed attempt the last attempt's assignments are kept (over the
rolled-back counter state) instead of failing the run. -/
theorem night_retry_loop_refines_spec (ctx : NightCtx) (d : Int)
    (st : NState) :
    nightProcessDate ctx d st = nightDateRetrySpec ctx d st := by
  rfl

/-! # Claim C10: one non-`生理` department per date -/

theorem nightStep_locks (ctx : NightCtx) (d : Int) (nH cH : Bool)
    (st : NState) (asg : List (String × String)) (aD : List String)
    (tr : List (Option String)) (p : NPos)
    (h1 : ∀ dep : String, some dep ∈ tr → dep ≠ "生理" → dep ∈ aD)
    (h2 : ∀ i j : Nat, ∀ dep : String, i < j → tr.get? i = some (some dep) →
      tr.get? j = some (some dep) → dep = "生理") :
    (∀ dep : String, some dep ∈ (nightStep ctx d nH cH (st, asg, aD, tr) p).2.2.2 →
      dep ≠ "生理" → dep ∈ (nightStep ctx d nH cH (st, asg, aD, tr) p).2.2.1) ∧
    (∀ i j : Nat, ∀ dep : String, i < j →
      (nightStep ctx d nH cH (st, asg, aD, tr) p).2.2.2.get? i = some (some dep) →
      (nightStep ctx d nH cH (st, asg, aD, tr) p).2.2.2.get? j = some (some dep) →
      dep = "生理") := by
  simp only [nightStep]
  split
  · -- no candidate department: trace gains `none`
    constructor
    · intro dep hdep hne
      rcases List.mem_append.mp hdep with hm | hm
      · exact h1 dep hm hne
      · simp at hm
    · intro i j dep hij hi hj
      rw [get?_snoc] at hi hj
      split at hj
      · split at hi
        · exact h2 i j dep hij hi hj
        · split at hi
          · cases hi
          · cases hi
      · split at hj
        · cases hj
        · cases hj
  · -- a department was selected
    next c cs hcand =>
    set dept := pickMin (fun dep => st.counters (nightKey nH p.name dep))
        (ctx.rngF st.ridx) c (c :: cs) with hdept
    -- the selected department is a member of the filtered candidate list
    have hdm : dept ∈ (candidateDepts ctx.staffL).filter
        (fun dep => !((nH || cH) && dep == "微生物") &&
          !(dep != "生理" && aD.contains dep)) := by
      rw [hcand]
      exact pickMin_mem (List.mem_cons_self c cs)
    have hprop := (List.mem_filter.mp hdm).2
    have hnotin : dept ≠ "生理" → dept ∉ aD := by
      intro hne hmem
      have hb : (dept != "生理" && aD.contains dept) = true := by
        rw [Bool.and_eq_true, bne_iff_ne]
        exact ⟨hne, (contains_true_iff aD dept).mpr hmem⟩
      rw [Bool.and_eq_true] at hprop
      have hp2 := hprop.2
      rw [hb] at hp2
      simp at hp2
    have key : ∀ (aD1 : List String) (tr1 : List (Option String)),
        aD1 = (if dept ≠ "生理" then insertNew aD dept else aD) →
        tr1 = tr ++ [some dept] →
        (∀ dep : String, some dep ∈ tr1 → dep ≠ "生理" → dep ∈ aD1) ∧
        (∀ i j : Nat, ∀ dep : String, i < j → tr1.get? i = some (some dep) →
          tr1.get? j = some (some dep) → dep = "生理") := by
      intro aD1 tr1 haD htr
      have haDsub : ∀ x, x ∈ aD → x ∈ aD1 := by
        intro x hx
        rw [haD]
        split
        · exact mem_insertNew.mpr (Or.inl hx)
        · exact hx
      constructor
      · intro dep hdep hne
        rcases List.mem_append.mp (htr ▸ hdep) with hm | hm
        · exact haDsub dep (h1 dep hm hne)
        · simp at hm
          rw [hm, haD, if_pos (hm ▸ hne)]
          exact mem_insertNew.mpr (Or.inr rfl)
      · intro i j dep hij hi hj
        rw [htr, get?_snoc] at hi hj
        split at hj
        · split at hi
          · exact h2 i j dep hij hi hj
          · next hlt hge =>
            split at hi
            · next heq =>
              -- i = length, j < length contradicts i < j
              omega
            · cases hi
        · split at hj
          · -- j = length: the new entry equals `some dept`
            have hdj : dep = dept := by
              have := hj
              simp at this
              exact this.symm
            split at hi
            · -- i indexes the old trace
              by_cases hg : dep = "生理"
              · exact hg
              · exfalso
                have hmemaD : dep ∈ aD := h1 dep (List.get?_mem hi) hg
                rw [hdj] at hmemaD hg
                exact hnotin hg hmemaD
            · split at hi
              · omega
              · cases hi
          · cases hj
    split
    · -- no eligible staff: department still recorded in the trace
      exact key _ _ (by split <;> rfl) rfl
    · exact key _ _ (by split <;> rfl) rfl

/-- C10: in the night rotation, within one date's pass over the night
positions, if the same department is selected for two different positions,
that department is `生理`; every other department, once selected, is
excluded from every later position's candidate set of the same date. -/
theorem night_department_selected_once (ctx : NightCtx) (d : Int)
    (st : NState) (i j : Nat) (dep : String) (hij : i < j)
    (hi : (assignNightShift ctx d st).2.2.get? i = some (some dep))
    (hj : (assignNightShift ctx d st).2.2.get? j = some (some dep)) :
    dep = "生理" := by
  have main := foldl_rec
    (fun acc : NState × List (String × String) × List String × List (Option String) =>
      (∀ dp : String, some dp ∈ acc.2.2.2 → dp ≠ "生理" → dp ∈ acc.2.2.1) ∧
      (∀ a b : Nat, ∀ dp : String, a < b → acc.2.2.2.get? a = some (some dp) →
        acc.2.2.2.get? b = some (some dp) → dp = "生理"))
    ctx.nightPos (st, ([] : List (String × String)), ([] : List String),
      ([] : List (Option String)))
    ⟨(by intro dp h; simp at h), (by intro a b dp _ h; simp at h)⟩
    (fun acc p _ hacc => by
      obtain ⟨st', asg', aD', tr'⟩ := acc
      exact nightStep_locks ctx d (isOffDay ctx.hol (d + 1)) (isOffDay ctx.hol d)
        st' asg' aD' tr' p hacc.1 hacc.2)
  exact main.2 i j dep hij hi hj

/-! # Claim C8: weekend/holiday short-circuit -/

theorem specialStaffStep_counters (d : Int) (p : Pos) (so : SpecialOut)
    (t : Staff) :
    (specialStaffStep d p so t).g.nrmCnt = so.g.nrmCnt ∧
    (specialStaffStep d p so t).g.sevCnt = so.g.sevCnt ∧
    (specialStaffStep d p so t).g.ridx = so.g.ridx := by
  unfold specialStaffStep
  split_ifs <;> exact ⟨rfl, rfl, rfl⟩

theorem specialPhase_counters (staffAll : List Staff) (nps : List Pos)
    (st : GState) (d : Int) :
    (specialPhase staffAll nps st d).g.nrmCnt = st.nrmCnt ∧
    (specialPhase staffAll nps st d).g.sevCnt = st.sevCnt ∧
    (specialPhase staffAll nps st d).g.ridx = st.ridx := by
  unfold specialPhase
  refine foldl_rec
    (fun so : SpecialOut => so.g.nrmCnt = st.nrmCnt ∧ so.g.sevCnt = st.sevCnt ∧
      so.g.ridx = st.ridx) _ _ ⟨rfl, rfl, rfl⟩ ?_
  intro so p _ hso
  refine foldl_rec
    (fun so2 : SpecialOut => so2.g.nrmCnt = st.nrmCnt ∧ so2.g.sevCnt = st.sevCnt ∧
      so2.g.ridx = st.ridx) _ _ hso ?_
  intro so2 t _ h2
  have hs := specialStaffStep_counters d p so2 t
  exact ⟨hs.1.trans h2.1, hs.2.1.trans h2.2.1, hs.2.2.trans h2.2.2⟩

theorem weekReset_proj (st : GState) (d : Int) :
    (weekReset st d).asg = st.asg ∧ (weekReset st d).nrmCnt = st.nrmCnt ∧
    (weekReset st d).sevCnt = st.sevCnt ∧ (weekReset st d).ridx = st.ridx ∧
    (weekReset st d).spHol = st.spHol := by
  unfold weekReset
  split <;> exact ⟨rfl, rfl, rfl, rfl, rfl⟩

/-- C8: on a Saturday, Sunday or holiday, a date's processing is exactly the
special/override phase's output (whose recorded assignments and leave
propagation therefore stand), and none of the later phases runs — in
particular both fairness counter spaces and the randomness cursor are left
untouched. -/
theorem weekend_holiday_short_circuit (inp : GenInput)
    (pre : Int → List String) (st : GState) (d : Int)
    (h : isOffDay inp.hol d = true) :
    processDay inp pre st d =
      (specialPhase inp.staffAll (normalPositions inp) (weekReset st d) d).g ∧
    (processDay inp pre st d).nrmCnt = st.nrmCnt ∧
    (processDay inp pre st d).sevCnt = st.sevCnt ∧
    (processDay inp pre st d).ridx = st.ridx := by
  have h1 : processDay inp pre st d =
      (specialPhase inp.staffAll (normalPositions inp) (weekReset st d) d).g := by
    unfold processDay
    rw [h]
    rfl
  have h2 := specialPhase_counters inp.staffAll (normalPositions inp)
    (weekReset st d) d
  have h3 := weekReset_proj st d
  refine ⟨h1, ?_, ?_, ?_⟩
  · rw [h1, h2.1, h3.2.1]
  · rw [h1, h2.2.1, h3.2.2.1]
  · rw [h1, h2.2.2, h3.2.2.2.1]

/-! # Claim C3: what an invalid attempt rolls back -/

/-- C3 (amended): inside the daily retry loop only the per-position
assignment lists of the current date are rolled back — every attempt's
output is invariant under arbitrary changes to those lists, because
`runAttempt` re-resets them from the loop-entry snapshot — while the loop
hands each failed attempt's *full* state (including both fairness counter
spaces, which are never restored) to the next attempt. -/
theorem retry_rolls_back_only_lists (ctx : DayCtx)
    (pres : String → List String) (g : GState) (f : String → List String)
    (n : Nat) :
    runAttempt ctx pres
      { g with asg := fun d' p =>
          if d' = ctx.d ∧ p ∈ ctx.normalPos.map (fun q => q.id) then f p
          else g.asg d' p } = runAttempt ctx pres g ∧
    retryLoop ctx pres (n + 1) g =
      (if (runAttempt ctx pres g).2 then (runAttempt ctx pres g).1
       else retryLoop ctx pres n (runAttempt ctx pres g).1) := by
  constructor
  · have h : resetAsg (ctx.normalPos.map fun q => q.id) ctx.d pres
        (fun d' p =>
          if d' = ctx.d ∧ p ∈ ctx.normalPos.map (fun q => q.id) then f p
          else g.asg d' p) =
        resetAsg (ctx.normalPos.map fun q => q.id) ctx.d pres g.asg := by
      funext d' p
      unfold resetAsg
      simp only []
      by_cases hc : d' = ctx.d ∧ p ∈ ctx.normalPos.map (fun q => q.id)
      · rw [if_pos hc, if_pos hc]
      · rw [if_neg hc, if_neg hc, if_neg hc]
    show runAttempt ctx pres _ = _
    unfold runAttempt
    rw [h]
  · rfl

/-! # Calendar lemmas -/

theorem seekBusiness_le {hol : Int → Bool} :
    ∀ (fuel : Nat) (cur pb : Int),
      seekBusiness hol (-1) fuel cur = some pb → pb ≤ cur := by
  intro fuel
  induction fuel with
  | zero => intro cur pb h; cases h
  | succ n ih =>
    intro cur pb h
    unfold seekBusiness at h
    split at h
    · have := ih (cur + (-1)) pb h
      omega
    · injection h with h1
      omega

theorem getPrev_lt {hol : Int → Bool} {d pb : Int}
    (h : getPreviousBusinessDay hol d = some pb) : pb < d := by
  have := @seekBusiness_le hol 10 (d - 1) pb h
  omega

theorem mem_getDatesInMonth {first : Int} {n : Nat} {x : Int} :
    x ∈ getDatesInMonth first n ↔ ∃ j : Nat, j < n ∧ x = first + (j : Int) := by
  unfold getDatesInMonth
  constructor
  · intro hx
    rcases List.mem_map.mp hx with ⟨j, hj, hfx⟩
    exact ⟨j, List.mem_range.mp hj, hfx.symm⟩
  · rintro ⟨j, hj, rfl⟩
    exact List.mem_map.mpr ⟨j, List.mem_range.mpr hj, rfl⟩

theorem getDatesInMonth_succ (first : Int) (n : Nat) :
    getDatesInMonth first (n + 1) =
      getDatesInMonth first n ++ [first + (n : Int)] := by
  unfold getDatesInMonth
  rw [List.range_succ, List.map_append]
  rfl

theorem getDatesInMonth_append (first : Int) (a b : Nat) :
    getDatesInMonth first (a + b) =
      getDatesInMonth first a ++ getDatesInMonth (first + (a : Int)) b := by
  induction b with
  | zero => simp [getDatesInMonth]
  | succ b ih =>
    have h1 : a + (b + 1) = (a + b) + 1 := by omega
    rw [h1, getDatesInMonth_succ, ih, getDatesInMonth_succ, List.append_assoc]
    have h2 : first + ((a + b : Nat) : Int) = first + (a : Int) + (b : Int) := by
      push_cast; ring
    rw [h2]

theorem getDatesInMonth_cons (first : Int) (n : Nat) :
    getDatesInMonth first (n + 1) = first :: getDatesInMonth (first + 1) n := by
  have h := getDatesInMonth_append first 1 n
  rw [show 1 + n = n + 1 from by omega] at h
  rw [h]
  have h1 : getDatesInMonth first 1 = [first] := by
    show List.map (fun k : Nat => first + (k : Int)) [0] = [first]
    simp
  rw [h1]
  simp

/-! # Frame lemmas: every phase writes assignment lists only at its date -/

theorem appendAsg_other_date {a : Int → String → List String} {d : Int}
    {pid m : String} {d' : Int} (h : d' ≠ d) :
    appendAsg a d pid m d' = a d' := by
  funext p'
  exact appendAsg_ne (fun hc => h hc.1)

theorem quotaStep_asg_other (ctx : DayCtx) (a : AState) (p : Pos)
    {d' : Int} (h : d' ≠ ctx.d) :
    (quotaStep ctx a p).g.asg d' = a.g.asg d' := by
  unfold quotaStep
  split_ifs
  · rfl
  · rfl
  · rfl
  · dsimp only []
    split
    · exact appendAsg_other_date h
    · exact appendAsg_other_date h

theorem depStep_asg_other (ctx : DayCtx) (a : AState) (p : Pos)
    {d' : Int} (h : d' ≠ ctx.d) :
    (depStep ctx a p).g.asg d' = a.g.asg d' := by
  unfold depStep
  split
  · rfl
  · split
    · exact appendAsg_other_date h
    · split
      · exact appendAsg_other_date h
      · exact appendAsg_other_date h

theorem weeklyFresh_asg_other (ctx : DayCtx) (a : AState) (p : Pos)
    (fw : Option Int) {d' : Int} (h : d' ≠ ctx.d) :
    (weeklyStep.weeklyFresh ctx a p fw).g.asg d' = a.g.asg d' := by
  unfold weeklyStep.weeklyFresh
  dsimp only []
  split
  · exact appendAsg_other_date h
  · exact appendAsg_other_date h

theorem weeklyStep_asg_other (ctx : DayCtx) (a : AState) (p : Pos)
    {d' : Int} (h : d' ≠ ctx.d) :
    (weeklyStep ctx a p).g.asg d' = a.g.asg d' := by
  unfold weeklyStep
  split_ifs
  · rfl
  · rfl
  · rfl
  · dsimp only []
    split
    · split
      · exact weeklyFresh_asg_other ctx a p _ h
      · exact appendAsg_other_date h
    · exact weeklyFresh_asg_other ctx a p _ h

theorem indepStep_asg_other (ctx : DayCtx) (a : AState) (p : Pos)
    {d' : Int} (h : d' ≠ ctx.d) :
    (indepStep ctx a p).g.asg d' = a.g.asg d' := by
  unfold indepStep
  split_ifs <;>
    first
    | rfl
    | (dsimp only []; split <;> exact appendAsg_other_date h)

theorem stdStep_asg_other (ctx : DayCtx) (a : AState) (p : Pos)
    {d' : Int} (h : d' ≠ ctx.d) :
    (stdStep ctx a p).g.asg d' = a.g.asg d' := by
  unfold stdStep
  split_ifs
  · rfl
  · rfl
  · rfl
  · rfl
  · dsimp only []
    split
    · exact appendAsg_other_date h
    · exact appendAsg_other_date h

theorem fallbackStep_asg_other (ctx : DayCtx) (a : AState) (t : Staff)
    {d' : Int} (h : d' ≠ ctx.d) :
    (fallbackStep ctx a t).g.asg d' = a.g.asg d' := by
  unfold fallbackStep
  dsimp only []
  split
  · rfl
  · exact appendAsg_other_date h

theorem fallbackPhase_asg_other (ctx : DayCtx) (a : AState)
    {d' : Int} (h : d' ≠ ctx.d) :
    (fallbackPhase ctx a).g.asg d' = a.g.asg d' := by
  unfold fallbackPhase
  split
  · rfl
  · dsimp only []
    refine foldl_rec (fun s : AState => s.g.asg d' = a.g.asg d') _ _ rfl ?_
    intro s t _ hs
    rw [fallbackStep_asg_other ctx s t h, hs]

theorem foldl_step_asg_other {step : AState → Pos → AState} (ctx : DayCtx)
    (hstep : ∀ (a : AState) (p : Pos) {d' : Int}, d' ≠ ctx.d →
      (step a p).g.asg d' = a.g.asg d')
    (l : List Pos) (a : AState) {d' : Int} (h : d' ≠ ctx.d) :
    (l.foldl step a).g.asg d' = a.g.asg d' := by
  refine foldl_rec (fun s : AState => s.g.asg d' = a.g.asg d') _ _ rfl ?_
  intro s p _ hs
  rw [hstep s p h, hs]

theorem runAttempt_asg_other (ctx : DayCtx) (pres : String → List String)
    (g : GState) {d' : Int} (h : d' ≠ ctx.d) :
    (runAttempt ctx pres g).1.asg d' = g.asg d' := by
  unfold runAttempt
  rw [fallbackPhase_asg_other ctx _ h]
  rw [foldl_step_asg_other ctx (fun a p {x} hx => stdStep_asg_other ctx a p hx) _ _ h]
  rw [foldl_step_asg_other ctx (fun a p {x} hx => indepStep_asg_other ctx a p hx) _ _ h]
  rw [foldl_step_asg_other ctx (fun a p {x} hx => weeklyStep_asg_other ctx a p hx) _ _ h]
  rw [foldl_step_asg_other ctx (fun a p {x} hx => depStep_asg_other ctx a p hx) _ _ h]
  rw [foldl_step_asg_other ctx (fun a p {x} hx => quotaStep_asg_other ctx a p hx) _ _ h]
  show resetAsg (ctx.normalPos.map (fun p => p.id)) ctx.d pres g.asg d' = g.asg d'
  funext p'
  unfold resetAsg
  rw [if_neg (fun hc => h hc.1)]

theorem retryLoop_asg_other (ctx : DayCtx) (pres : String → List String)
    (n : Nat) (g : GState) {d' : Int} (h : d' ≠ ctx.d) :
    (retryLoop ctx pres n g).asg d' = g.asg d' := by
  induction n generalizing g with
  | zero => rfl
  | succ n ih =>
    unfold retryLoop
    dsimp only []
    split
    · exact runAttempt_asg_other ctx pres g h
    · rw [ih, runAttempt_asg_other ctx pres g h]

theorem specialStaffStep_asg_other (d : Int) (p : Pos) (so : SpecialOut)
    (t : Staff) {d' : Int} (h : d' ≠ d) :
    (specialStaffStep d p so t).g.asg d' = so.g.asg d' := by
  unfold specialStaffStep
  dsimp only []
  split_ifs <;> first | rfl | exact appendAsg_other_date h

theorem specialPhase_asg_other (staffAll : List Staff) (nps : List Pos)
    (st : GState) (d : Int) {d' : Int} (h : d' ≠ d) :
    (specialPhase staffAll nps st d).g.asg d' = st.asg d' := by
  unfold specialPhase
  refine foldl_rec (fun so : SpecialOut => so.g.asg d' = st.asg d') _ _ rfl ?_
  intro so p _ hso
  refine foldl_rec (fun so2 : SpecialOut => so2.g.asg d' = st.asg d') _ _ hso ?_
  intro so2 t _ h2
  rw [specialStaffStep_asg_other d p so2 t h, h2]

theorem processDay_asg_other (inp : GenInput) (pre : Int → List String)
    (st : GState) (d : Int) {d' : Int} (h : d' ≠ d) :
    (processDay inp pre st d).asg d' = st.asg d' := by
  unfold processDay
  have hw : (weekReset st d).asg = st.asg := (weekReset_proj st d).1
  split
  · rw [specialPhase_asg_other _ _ _ _ h, hw]
  · rw [retryLoop_asg_other _ _ _ _ h, specialPhase_asg_other _ _ _ _ h, hw]

theorem foldl_processDay_frame (inp : GenInput) (pre : Int → List String)
    (ds : List Int) (st : GState) {x : Int} (hx : x ∉ ds) :
    ((ds.foldl (processDay inp pre) st)).asg x = st.asg x := by
  refine foldl_rec (fun s : GState => s.asg x = st.asg x) _ _ rfl ?_
  intro s d hd hs
  have hne : x ≠ d := fun hc => hx (hc ▸ hd)
  rw [processDay_asg_other inp pre s d hne, hs]

/-! # Candidate-extraction helpers -/

theorem chosen_prop {fs : List Staff} {g : Staff → Bool} {x : String}
    (h : x ∈ (fs.filter g).map (fun s => s.name)) :
    ∃ s, s ∈ fs ∧ s.name = x ∧ g s = true := by
  rcases List.mem_map.mp h with ⟨s, hs, hsx⟩
  rcases List.mem_filter.mp hs with ⟨h1, h2⟩
  exact ⟨s, h1, hsx, h2⟩

theorem mem_of_eq_cons {α : Type} {l : List α} {c : α} {cs : List α}
    (hc : l = c :: cs) {x : α} (hx : x ∈ c :: cs) : x ∈ l := by
  rw [hc]; exact hx

theorem contains_int_true_iff (l : List Int) (a : Int) :
    l.contains a = true ↔ a ∈ l := by
  induction l with
  | nil => simp
  | cons x t ih =>
    simp only [List.contains_cons, Bool.or_eq_true, beq_iff_eq, List.mem_cons] at *
    constructor
    · rintro (rfl | h)
      · exact Or.inl rfl
      · exact Or.inr (ih.mp h)
    · rintro (rfl | h)
      · exact Or.inl rfl
      · exact Or.inr (ih.mpr h)

theorem mem_of_contains {l : List String} {x : String}
    (h : l.contains x = true) : x ∈ l := (contains_true_iff l x).mp h

theorem not_mem_of_bnot_contains {l : List String} {x : String}
    (h : (!(l.contains x)) = true) : x ∉ l := by
  intro hm
  rw [(contains_true_iff l x).mpr hm] at h
  simp at h

theorem mem_insOrd {α : Type} (key : α → Int) (x y : α) :
    ∀ l : List α, (y ∈ insOrd key x l ↔ y = x ∨ y ∈ l)
  | [] => by simp [insOrd]
  | z :: t => by
    unfold insOrd
    split
    · rw [List.mem_cons, mem_insOrd key x y t, List.mem_cons]
      tauto
    · simp [List.mem_cons]

theorem mem_sortByKey {α : Type} (key : α → Int) (y : α) :
    ∀ l : List α, (y ∈ sortByKey key l ↔ y ∈ l)
  | [] => Iff.rfl
  | x :: t => by
    show y ∈ insOrd key x (sortByKey key t) ↔ _
    rw [mem_insOrd, mem_sortByKey key y t, List.mem_cons]

theorem stillUn_name_in_avail (ctx : DayCtx) (a : AState) {t : Staff}
    (ht : t ∈ sortByKey (fun s => (s.availablePositions.length : Int))
      (a.avail.filterMap (fun n => ctx.fStaff.find? (fun s => s.name == n)))) :
    t.name ∈ a.avail := by
  have ht2 : t ∈ a.avail.filterMap
      (fun n => ctx.fStaff.find? (fun s => s.name == n)) :=
    (mem_sortByKey _ t _).mp ht
  rcases List.mem_filterMap.mp ht2 with ⟨n, hn, hfind⟩
  have hbeq := List.find?_some hfind
  rw [beq_iff_eq] at hbeq
  rw [hbeq]
  exact hn

theorem sentinel_ne {p : Pos} {v : String} (h1 : v ≠ "未配置") (h2 : v ≠ "")
    (h : v = sentinel p) : False := by
  unfold sentinel at h
  split at h
  · exact h1 h
  · exact h2 h

/-! # Pool monotonicity: daily-assigned grows, the pool shrinks -/

theorem quotaStep_pool (ctx : DayCtx) (a : AState) (p : Pos) {v : String}
    (h1 : v ∈ a.dailyA) (h2 : v ∉ a.avail) :
    v ∈ (quotaStep ctx a p).dailyA ∧ v ∉ (quotaStep ctx a p).avail := by
  unfold quotaStep
  split_ifs <;>
    first
    | exact ⟨h1, h2⟩
    | (dsimp only []; split <;> exact ⟨h1, h2⟩)

theorem depStep_pool (ctx : DayCtx) (a : AState) (p : Pos) {v : String}
    (h1 : v ∈ a.dailyA) (h2 : v ∉ a.avail) :
    v ∈ (depStep ctx a p).dailyA ∧ v ∉ (depStep ctx a p).avail := by
  unfold depStep
  split
  · exact ⟨h1, h2⟩
  · split
    · exact ⟨h1, h2⟩
    · split
      · exact ⟨h1, h2⟩
      · exact ⟨mem_insertNew.mpr (Or.inl h1),
          fun hm => h2 (mem_removeName.mp hm).1⟩

theorem weeklyFresh_pool (ctx : DayCtx) (a : AState) (p : Pos)
    (fw : Option Int) {v : String} (h1 : v ∈ a.dailyA) (h2 : v ∉ a.avail) :
    v ∈ (weeklyStep.weeklyFresh ctx a p fw).dailyA ∧
    v ∉ (weeklyStep.weeklyFresh ctx a p fw).avail := by
  unfold weeklyStep.weeklyFresh
  dsimp only []
  split
  · exact ⟨h1, h2⟩
  · exact ⟨mem_insertNew.mpr (Or.inl h1),
      fun hm => h2 (mem_removeName.mp hm).1⟩

theorem weeklyStep_pool (ctx : DayCtx) (a : AState) (p : Pos) {v : String}
    (h1 : v ∈ a.dailyA) (h2 : v ∉ a.avail) :
    v ∈ (weeklyStep ctx a p).dailyA ∧ v ∉ (weeklyStep ctx a p).avail := by
  unfold weeklyStep
  split_ifs <;>
    first
    | exact ⟨h1, h2⟩
    | (dsimp only []
       split
       · split
         · exact weeklyFresh_pool ctx a p _ h1 h2
         · exact ⟨mem_insertNew.mpr (Or.inl h1),
             fun hm => h2 (mem_removeName.mp hm).1⟩
       · exact weeklyFresh_pool ctx a p _ h1 h2)

theorem indepStep_pool (ctx : DayCtx) (a : AState) (p : Pos) {v : String}
    (h1 : v ∈ a.dailyA) (h2 : v ∉ a.avail) :
    v ∈ (indepStep ctx a p).dailyA ∧ v ∉ (indepStep ctx a p).avail := by
  unfold indepStep
  split_ifs <;>
    first
    | exact ⟨h1, h2⟩
    | (dsimp only []
       split
       · exact ⟨h1, h2⟩
       · exact ⟨mem_insertNew.mpr (Or.inl h1),
           fun hm => h2 (mem_removeName.mp hm).1⟩)

theorem stdStep_pool (ctx : DayCtx) (a : AState) (p : Pos) {v : String}
    (h1 : v ∈ a.dailyA) (h2 : v ∉ a.avail) :
    v ∈ (stdStep ctx a p).dailyA ∧ v ∉ (stdStep ctx a p).avail := by
  unfold stdStep
  split_ifs <;>
    first
    | exact ⟨h1, h2⟩
    | (dsimp only []
       split
       · exact ⟨h1, h2⟩
       · exact ⟨mem_insertNew.mpr (Or.inl h1),
           fun hm => h2 (mem_removeName.mp hm).1⟩)

theorem fallbackStep_pool (ctx : DayCtx) (a : AState) (t : Staff) {v : String}
    (h1 : v ∈ a.dailyA) (h2 : v ∉ a.avail) :
    v ∈ (fallbackStep ctx a t).dailyA ∧ v ∉ (fallbackStep ctx a t).avail := by
  unfold fallbackStep
  dsimp only []
  split
  · exact ⟨h1, h2⟩
  · exact ⟨mem_insertNew.mpr (Or.inl h1),
      fun hm => h2 (mem_removeName.mp hm).1⟩

/-! # After the dependency phase, a locked name is never assigned again -/

theorem weeklyFresh_no_new (ctx : DayCtx) (a : AState) (p : Pos)
    (fw : Option Int) {v : String} (hav : v ∉ a.avail) (hs1 : v ≠ "未配置")
    (hs2 : v ≠ "") :
    ∀ pid, v ∈ (weeklyStep.weeklyFresh ctx a p fw).g.asg ctx.d pid →
      v ∈ a.g.asg ctx.d pid := by
  intro pid hm
  unfold weeklyStep.weeklyFresh at hm
  dsimp only [] at hm
  split at hm
  · rcases mem_appendAsg.mp hm with h | ⟨_, _, hveq⟩
    · exact h
    · exact absurd hveq (fun hh => sentinel_ne hs1 hs2 hh)
  · next c cs hc =>
    rcases mem_appendAsg.mp hm with h | ⟨_, _, hveq⟩
    · exact h
    · exfalso
      rcases chosen_prop (mem_of_eq_cons hc
          (pickMin_mem (List.mem_cons_self c cs))) with ⟨s, _, hname, hcond⟩
      simp only [Bool.and_eq_true] at hcond
      have hmem := mem_of_contains hcond.1.2
      rw [hname, ← hveq] at hmem
      exact hav hmem

theorem weeklyStep_no_new (ctx : DayCtx) (a : AState) (p : Pos) {v : String}
    (hda : v ∈ a.dailyA) (hav : v ∉ a.avail) (hs1 : v ≠ "未配置")
    (hs2 : v ≠ "") :
    ∀ pid, v ∈ (weeklyStep ctx a p).g.asg ctx.d pid →
      v ∈ a.g.asg ctx.d pid := by
  intro pid hm
  unfold weeklyStep at hm
  split_ifs at hm
  · exact hm
  · exact hm
  · exact hm
  · dsimp only [] at hm
    split at hm
    · split at hm
      · exact weeklyFresh_no_new ctx a p _ hav hs1 hs2 pid hm
      · next hnot =>
        rcases mem_appendAsg.mp hm with h | ⟨_, _, hveq⟩
        · exact h
        · exact absurd (hveq ▸ hda) hnot
    · exact weeklyFresh_no_new ctx a p _ hav hs1 hs2 pid hm

theorem indepStep_no_new (ctx : DayCtx) (a : AState) (p : Pos) {v : String}
    (hav : v ∉ a.avail) (hs1 : v ≠ "未配置") (hs2 : v ≠ "") :
    ∀ pid, v ∈ (indepStep ctx a p).g.asg ctx.d pid →
      v ∈ a.g.asg ctx.d pid := by
  intro pid hm
  unfold indepStep at hm
  split_ifs at hm
  all_goals try exact hm
  · dsimp only [] at hm
    split at hm
    · rcases mem_appendAsg.mp hm with h | ⟨_, _, hveq⟩
      · exact h
      · exact absurd hveq (fun hh => sentinel_ne hs1 hs2 hh)
    · next c cs hc =>
      rcases mem_appendAsg.mp hm with h | ⟨_, _, hveq⟩
      · exact h
      · exfalso
        rcases chosen_prop (mem_of_eq_cons hc
            (pickRand_mem (List.mem_cons_self c cs))) with ⟨s, _, hname, hcond⟩
        simp only [Bool.and_eq_true] at hcond
        have hmem := mem_of_contains hcond.1.1.1.1.1.2
        rw [hname, ← hveq] at hmem
        exact hav hmem

theorem stdStep_no_new (ctx : DayCtx) (a : AState) (p : Pos) {v : String}
    (hav : v ∉ a.avail) (hs1 : v ≠ "未配置") (hs2 : v ≠ "") :
    ∀ pid, v ∈ (stdStep ctx a p).g.asg ctx.d pid →
      v ∈ a.g.asg ctx.d pid := by
  intro pid hm
  unfold stdStep at hm
  split_ifs at hm
  · exact hm
  · exact hm
  · exact hm
  · exact hm
  · dsimp only [] at hm
    split at hm
    · rcases mem_appendAsg.mp hm with h | ⟨_, _, hveq⟩
      · exact h
      · exact absurd hveq (fun hh => sentinel_ne hs1 hs2 hh)
    · next c cs hc =>
      rcases mem_appendAsg.mp hm with h | ⟨_, _, hveq⟩
      · exact h
      · exfalso
        rcases chosen_prop (mem_of_eq_cons hc
            (pickMin_mem (List.mem_cons_self c cs))) with ⟨s, _, hname, hcond⟩
        simp only [Bool.and_eq_true] at hcond
        have hmem := mem_of_contains hcond.1.2
        rw [hname, ← hveq] at hmem
        exact hav hmem

theorem fallbackStep_no_new (ctx : DayCtx) (a : AState) (t : Staff)
    {v : String} (hne : t.name ≠ v) :
    ∀ pid, v ∈ (fallbackStep ctx a t).g.asg ctx.d pid →
      v ∈ a.g.asg ctx.d pid := by
  intro pid hm
  unfold fallbackStep at hm
  dsimp only [] at hm
  split at hm
  · exact hm
  · rcases mem_appendAsg.mp hm with h | ⟨_, _, hveq⟩
    · exact h
    · exact absurd hveq.symm hne

theorem fallbackPhase_no_new (ctx : DayCtx) (a : AState) {v : String}
    (hav : v ∉ a.avail) :
    ∀ pid, v ∈ (fallbackPhase ctx a).g.asg ctx.d pid →
      v ∈ a.g.asg ctx.d pid := by
  intro pid
  unfold fallbackPhase
  split
  · exact fun h => h
  · dsimp only []
    refine foldl_rec
      (fun s : AState => v ∈ s.g.asg ctx.d pid → v ∈ a.g.asg ctx.d pid)
      _ _ (fun h => h) ?_
    intro s t ht hs hmem
    have hname : t.name ∈ a.avail := stillUn_name_in_avail ctx a ht
    have hne : t.name ≠ v := fun hc => hav (hc ▸ hname)
    exact hs (fallbackStep_no_new ctx s t hne pid hmem)

/-! # Claim C4 (amended): the dependency copy is locked after its phase -/

/-- C4 (amended): the `staffSeveral` quota phase runs *before* the
dependency phase inside each attempt and may therefore assign the copied
person elsewhere; but once the dependency phase for an attempt has run, the
copied name `v` (the last entry of the dependence target's
previous-business-day list) is in the daily-assigned set and out of the
available pool, and the weekly-sticky, referenced-independent, standard and
fallback phases that follow never add `v` to any position's list. -/
theorem dependency_copy_locked_after_phase (ctx : DayCtx) (a : AState)
    (p : Pos) (q : String) (pb : Int) (v : String)
    (hp : p ∈ ctx.normalPos) (hq : p.dependence = some q)
    (hpb : getPreviousBusinessDay ctx.hol ctx.d = some pb)
    (hlast : (a.g.asg pb q).getLast? = some v)
    (hs1 : v ≠ "未配置") (hs2 : v ≠ "") :
    (v ∈ (ctx.normalPos.foldl (depStep ctx) a).dailyA ∧
     v ∉ (ctx.normalPos.foldl (depStep ctx) a).avail) ∧
    (∀ pid,
      v ∈ (fallbackPhase ctx (ctx.normalPos.foldl (stdStep ctx)
        (ctx.normalPos.foldl (indepStep ctx)
          (ctx.normalPos.foldl (weeklyStep ctx)
            (ctx.normalPos.foldl (depStep ctx) a))))).g.asg ctx.d pid →
      v ∈ (ctx.normalPos.foldl (depStep ctx) a).g.asg ctx.d pid) := by
  have hpbne : pb ≠ ctx.d := by
    have := getPrev_lt hpb
    omega
  -- part 1: the dependency phase locks the copied name
  have part1 : v ∈ (ctx.normalPos.foldl (depStep ctx) a).dailyA ∧
      v ∉ (ctx.normalPos.foldl (depStep ctx) a).avail := by
    rcases List.append_of_mem hp with ⟨l1, l2, hl⟩
    rw [hl, List.foldl_append, List.foldl_cons]
    have hframe : (l1.foldl (depStep ctx) a).g.asg pb = a.g.asg pb :=
      foldl_step_asg_other ctx
        (fun a' p' {x} hx => depStep_asg_other ctx a' p' hx) l1 a hpbne
    have hstep : v ∈ (depStep ctx (l1.foldl (depStep ctx) a) p).dailyA ∧
        v ∉ (depStep ctx (l1.foldl (depStep ctx) a) p).avail := by
      have hl2 : (l1.foldl (depStep ctx) a).g.asg pb q = a.g.asg pb q := by
        rw [hframe]
      generalize hB : l1.foldl (depStep ctx) a = b at hl2 ⊢
      unfold depStep
      rw [hq]
      dsimp only []
      rw [hpb]
      dsimp only []
      rw [hl2, hlast]
      dsimp only []
      exact ⟨mem_insertNew.mpr (Or.inr rfl),
        fun hm => (mem_removeName.mp hm).2 rfl⟩
    refine foldl_rec
      (fun s : AState => v ∈ s.dailyA ∧ v ∉ s.avail) l2 _ hstep ?_
    intro s p' _ hs
    exact depStep_pool ctx s p' hs.1 hs.2
  refine ⟨part1, ?_⟩
  intro pid hm
  -- push the lock through the weekly, independent and standard phases
  have hw := foldl_rec
    (fun s : AState => (v ∈ s.dailyA ∧ v ∉ s.avail) ∧
      (v ∈ s.g.asg ctx.d pid →
        v ∈ (ctx.normalPos.foldl (depStep ctx) a).g.asg ctx.d pid))
    ctx.normalPos (ctx.normalPos.foldl (depStep ctx) a)
    ⟨part1, fun h => h⟩
    (fun s p' _ hs => ⟨weeklyStep_pool ctx s p' hs.1.1 hs.1.2,
      fun hmem => hs.2 (weeklyStep_no_new ctx s p' hs.1.1 hs.1.2 hs1 hs2 pid hmem)⟩)
  have hi := foldl_rec
    (fun s : AState => (v ∈ s.dailyA ∧ v ∉ s.avail) ∧
      (v ∈ s.g.asg ctx.d pid →
        v ∈ (ctx.normalPos.foldl (depStep ctx) a).g.asg ctx.d pid))
    ctx.normalPos (ctx.normalPos.foldl (weeklyStep ctx)
      (ctx.normalPos.foldl (depStep ctx) a))
    hw
    (fun s p' _ hs => ⟨indepStep_pool ctx s p' hs.1.1 hs.1.2,
      fun hmem => hs.2 (indepStep_no_new ctx s p' hs.1.2 hs1 hs2 pid hmem)⟩)
  have hstd := foldl_rec
    (fun s : AState => (v ∈ s.dailyA ∧ v ∉ s.avail) ∧
      (v ∈ s.g.asg ctx.d pid →
        v ∈ (ctx.normalPos.foldl (depStep ctx) a).g.asg ctx.d pid))
    ctx.normalPos (ctx.normalPos.foldl (indepStep ctx)
      (ctx.normalPos.foldl (weeklyStep ctx)
        (ctx.normalPos.foldl (depStep ctx) a)))
    hi
    (fun s p' _ hs => ⟨stdStep_pool ctx s p' hs.1.1 hs.1.2,
      fun hmem => hs.2 (stdStep_no_new ctx s p' hs.1.2 hs1 hs2 pid hmem)⟩)
  exact hstd.2 (fallbackPhase_no_new ctx _ hstd.1.2 pid hm)

/-- Witness for the C4 theorem at a concrete context: day 2 (Tuesday), one
dependent position `P`, the prior business day 1 holding `["X"]` for `Q`;
the theorem's hypotheses are discharged by computation. -/
theorem dependency_copy_locked_after_phase_witness :
    ((pos0 "P" "P").dependence = none) ∧
    (aW4.g.asg 1 "Q").getLast? = some "X" ∧
    (("X" ∈ (ctxW4.normalPos.foldl (depStep ctxW4) aW4).dailyA ∧
      "X" ∉ (ctxW4.normalPos.foldl (depStep ctxW4) aW4).avail) ∧
     (∀ pid,
       "X" ∈ (fallbackPhase ctxW4 (ctxW4.normalPos.foldl (stdStep ctxW4)
         (ctxW4.normalPos.foldl (indepStep ctxW4)
           (ctxW4.normalPos.foldl (weeklyStep ctxW4)
             (ctxW4.normalPos.foldl (depStep ctxW4) aW4))))).g.asg ctxW4.d pid →
       "X" ∈ (ctxW4.normalPos.foldl (depStep ctxW4) aW4).g.asg ctxW4.d pid)) :=
  ⟨rfl, by decide,
   dependency_copy_locked_after_phase ctxW4 aW4
     { pos0 "P" "P" with dependence := some "Q" } "Q" 1 "X"
     (by decide) rfl (by decide) (by decide) (by decide) (by decide)⟩

/-! # Claim C1 machinery: staff on leave stay out of the day's lists -/

theorem mem_of_getLast_eq {α : Type} : ∀ (l : List α) (a : α),
    l.getLast? = some a → a ∈ l
  | [], _, h => by cases h
  | [x], a, h => by
    rw [List.getLast?_singleton] at h
    injection h with h1
    rw [← h1]
    exact List.mem_cons_self x []
  | x :: y :: t, a, h => by
    rw [List.getLast?_cons_cons] at h
    exact List.mem_cons_of_mem x (mem_of_getLast_eq (y :: t) a h)

theorem weeklyReuse_props {ctx : DayCtx} {a : AState} {p : Pos} {v : String}
    (h : weeklyReuse ctx a p = some v) :
    v ∉ ctx.hyN ∧ v ∉ ctx.hfN ∧ v ∉ ctx.hdN := by
  unfold weeklyReuse at h
  split at h
  · cases h
  · split at h
    · cases h
    · split at h
      · next hcond =>
        injection h with h1
        subst h1
        refine ⟨?_, ?_, ?_⟩
        · intro hm; exact hcond.2.2.1 ((contains_true_iff _ _).mpr hm)
        · intro hm; exact hcond.2.2.2.1 ((contains_true_iff _ _).mpr hm)
        · intro hm; exact hcond.2.2.2.2.1 ((contains_true_iff _ _).mpr hm)
      · cases h

theorem quotaStep_avail (ctx : DayCtx) (a : AState) (p : Pos) :
    (quotaStep ctx a p).avail = a.avail := by
  unfold quotaStep
  split_ifs <;> first | rfl | (dsimp only []; split <;> rfl)

theorem depStep_avail_anti (ctx : DayCtx) (a : AState) (p : Pos) {n : String}
    (h : n ∉ a.avail) : n ∉ (depStep ctx a p).avail := by
  unfold depStep
  split
  · exact h
  · split
    · exact h
    · split
      · exact h
      · exact fun hm => h (mem_removeName.mp hm).1

theorem weeklyFresh_avail_anti (ctx : DayCtx) (a : AState) (p : Pos)
    (fw : Option Int) {n : String} (h : n ∉ a.avail) :
    n ∉ (weeklyStep.weeklyFresh ctx a p fw).avail := by
  unfold weeklyStep.weeklyFresh
  dsimp only []
  split
  · exact h
  · exact fun hm => h (mem_removeName.mp hm).1

theorem weeklyStep_avail_anti (ctx : DayCtx) (a : AState) (p : Pos)
    {n : String} (h : n ∉ a.avail) : n ∉ (weeklyStep ctx a p).avail := by
  unfold weeklyStep
  split_ifs <;>
    first
    | exact h
    | (dsimp only []
       split
       · split
         · exact weeklyFresh_avail_anti ctx a p _ h
         · exact fun hm => h (mem_removeName.mp hm).1
       · exact weeklyFresh_avail_anti ctx a p _ h)

theorem indepStep_avail_anti (ctx : DayCtx) (a : AState) (p : Pos)
    {n : String} (h : n ∉ a.avail) : n ∉ (indepStep ctx a p).avail := by
  unfold indepStep
  split_ifs <;>
    first
    | exact h
    | (dsimp only []
       split
       · exact h
       · exact fun hm => h (mem_removeName.mp hm).1)

theorem stdStep_avail_anti (ctx : DayCtx) (a : AState) (p : Pos)
    {n : String} (h : n ∉ a.avail) : n ∉ (stdStep ctx a p).avail := by
  unfold stdStep
  split_ifs <;>
    first
    | exact h
    | (dsimp only []
       split
       · exact h
       · exact fun hm => h (mem_removeName.mp hm).1)

theorem quotaStep_no_new (ctx : DayCtx) (a : AState) (p : Pos) {n : String}
    (hlv : n ∈ ctx.hyN ∨ n ∈ ctx.hfN ∨ n ∈ ctx.hdN)
    (hs1 : n ≠ "未配置") (hs2 : n ≠ "") :
    ∀ pid, n ∈ (quotaStep ctx a p).g.asg ctx.d pid →
      n ∈ a.g.asg ctx.d pid := by
  intro pid hm
  unfold quotaStep at hm
  split_ifs at hm
  all_goals try exact hm
  dsimp only [] at hm
  split at hm
  · rcases mem_appendAsg.mp hm with h | ⟨_, _, hveq⟩
    · exact h
    · exact absurd hveq (fun hh => sentinel_ne hs1 hs2 hh)
  · next c cs hc =>
    rcases mem_appendAsg.mp hm with h | ⟨_, _, hveq⟩
    · exact h
    · exfalso
      rcases chosen_prop (mem_of_eq_cons hc
          (pickMin_mem (List.mem_cons_self c cs))) with ⟨s, _, hname, hcond⟩
      simp only [Bool.and_eq_true] at hcond
      have hhy := not_mem_of_bnot_contains hcond.1.1.1.1.2
      have hhf := not_mem_of_bnot_contains hcond.1.1.1.2
      have hhd := not_mem_of_bnot_contains hcond.1.1.2
      rw [hname, ← hveq] at hhy hhf hhd
      rcases hlv with h | h | h
      · exact hhy h
      · exact hhf h
      · exact hhd h

theorem depStep_no_new (ctx : DayCtx) (a : AState) (p : Pos) {n : String}
    (hs1 : n ≠ "未配置")
    (h3 : ∀ pb, getPreviousBusinessDay ctx.hol ctx.d = some pb →
      ∀ pid, n ∉ a.g.asg pb pid) :
    ∀ pid, n ∈ (depStep ctx a p).g.asg ctx.d pid →
      n ∈ a.g.asg ctx.d pid := by
  intro pid hm
  unfold depStep at hm
  split at hm
  · exact hm
  · next q hq =>
    split at hm
    · rcases mem_appendAsg.mp hm with h | ⟨_, _, hveq⟩
      · exact h
      · exact absurd hveq hs1
    · next pb hpb =>
      split at hm
      · rcases mem_appendAsg.mp hm with h | ⟨_, _, hveq⟩
        · exact h
        · exact absurd hveq hs1
      · next v hlastv =>
        rcases mem_appendAsg.mp hm with h | ⟨_, _, hveq⟩
        · exact h
        · exact absurd (hveq.symm ▸ mem_of_getLast_eq _ _ hlastv)
            (h3 pb hpb q)

theorem weeklyStep_no_new_leave (ctx : DayCtx) (a : AState) (p : Pos)
    {n : String} (hlv : n ∈ ctx.hyN ∨ n ∈ ctx.hfN ∨ n ∈ ctx.hdN)
    (hs1 : n ≠ "未配置") (hs2 : n ≠ "") (hav : n ∉ a.avail) :
    ∀ pid, n ∈ (weeklyStep ctx a p).g.asg ctx.d pid →
      n ∈ a.g.asg ctx.d pid := by
  intro pid hm
  unfold weeklyStep at hm
  split_ifs at hm
  all_goals try exact hm
  dsimp only [] at hm
  split at hm
  · next v hre =>
    split at hm
    · exact weeklyFresh_no_new ctx a p _ hav hs1 hs2 pid hm
    · rcases mem_appendAsg.mp hm with h | ⟨_, _, hveq⟩
      · exact h
      · exfalso
        have hp := weeklyReuse_props hre
        rcases hlv with h | h | h
        · exact hp.1 (hveq ▸ h)
        · exact hp.2.1 (hveq ▸ h)
        · exact hp.2.2 (hveq ▸ h)
  · exact weeklyFresh_no_new ctx a p _ hav hs1 hs2 pid hm

theorem initAvail_excludes (ctx : DayCtx) {n : String}
    (hlv : n ∈ ctx.hyN ∨ n ∈ ctx.hfN ∨ n ∈ ctx.hdN) :
    n ∉ initAvail ctx := by
  unfold initAvail
  rcases hlv with h | h | h
  · apply not_mem_foldl_removeName_of_not_mem
    apply not_mem_foldl_removeName_of_not_mem
    apply not_mem_foldl_removeName_of_not_mem
    apply not_mem_foldl_removeName_of_not_mem
    exact not_mem_foldl_removeName_of_mem h _
  · apply not_mem_foldl_removeName_of_not_mem
    apply not_mem_foldl_removeName_of_not_mem
    apply not_mem_foldl_removeName_of_not_mem
    exact not_mem_foldl_removeName_of_mem h _
  · apply not_mem_foldl_removeName_of_not_mem
    apply not_mem_foldl_removeName_of_not_mem
    exact not_mem_foldl_removeName_of_mem h _

theorem runAttempt_keeps_out (ctx : DayCtx) (pres : String → List String)
    (g : GState) {n : String}
    (hlv : n ∈ ctx.hyN ∨ n ∈ ctx.hfN ∨ n ∈ ctx.hdN)
    (hs1 : n ≠ "未配置") (hs2 : n ≠ "")
    (hpres : ∀ pid, n ∉ pres pid)
    (h2 : ∀ pid, n ∉ g.asg ctx.d pid)
    (h3 : ∀ pb, getPreviousBusinessDay ctx.hol ctx.d = some pb →
      ∀ pid, n ∉ g.asg pb pid) :
    (∀ pid, n ∉ (runAttempt ctx pres g).1.asg ctx.d pid) ∧
    (∀ pb, getPreviousBusinessDay ctx.hol ctx.d = some pb →
      ∀ pid, n ∉ (runAttempt ctx pres g).1.asg pb pid) := by
  have hInv0 : KeptOut ctx n
      ⟨{ g with
         asg := resetAsg (ctx.normalPos.map (fun p => p.id)) ctx.d pres g.asg },
       initAvail ctx, [], []⟩ := by
    refine ⟨initAvail_excludes ctx hlv, ?_, ?_⟩
    · intro pid
      show n ∉ resetAsg (ctx.normalPos.map (fun p => p.id)) ctx.d pres g.asg
        ctx.d pid
      unfold resetAsg
      split
      · exact hpres pid
      · exact h2 pid
    · intro pb hpb pid
      have hne : pb ≠ ctx.d := by have := getPrev_lt hpb; omega
      show n ∉ resetAsg (ctx.normalPos.map (fun p => p.id)) ctx.d pres g.asg
        pb pid
      unfold resetAsg
      rw [if_neg (fun hc => hne hc.1)]
      exact h3 pb hpb pid
  have hq : ∀ (l : List Pos) (a : AState), KeptOut ctx n a →
      KeptOut ctx n (l.foldl (quotaStep ctx) a) := by
    intro l a ha
    refine foldl_rec (KeptOut ctx n) l a ha ?_
    intro s p _ hsI
    refine ⟨by rw [quotaStep_avail]; exact hsI.1,
      fun pid hmem => hsI.2.1 pid (quotaStep_no_new ctx s p hlv hs1 hs2 pid hmem),
      fun pb hpb pid => ?_⟩
    have hne : pb ≠ ctx.d := by have := getPrev_lt hpb; omega
    rw [show (quotaStep ctx s p).g.asg pb = s.g.asg pb from
      quotaStep_asg_other ctx s p hne]
    exact hsI.2.2 pb hpb pid
  have hd : ∀ (l : List Pos) (a : AState), KeptOut ctx n a →
      KeptOut ctx n (l.foldl (depStep ctx) a) := by
    intro l a ha
    refine foldl_rec (KeptOut ctx n) l a ha ?_
    intro s p _ hsI
    refine ⟨depStep_avail_anti ctx s p hsI.1,
      fun pid hmem => hsI.2.1 pid (depStep_no_new ctx s p hs1 hsI.2.2 pid hmem),
      fun pb hpb pid => ?_⟩
    have hne : pb ≠ ctx.d := by have := getPrev_lt hpb; omega
    rw [show (depStep ctx s p).g.asg pb = s.g.asg pb from
      depStep_asg_other ctx s p hne]
    exact hsI.2.2 pb hpb pid
  have hwk : ∀ (l : List Pos) (a : AState), KeptOut ctx n a →
      KeptOut ctx n (l.foldl (weeklyStep ctx) a) := by
    intro l a ha
    refine foldl_rec (KeptOut ctx n) l a ha ?_
    intro s p _ hsI
    refine ⟨weeklyStep_avail_anti ctx s p hsI.1,
      fun pid hmem => hsI.2.1 pid
        (weeklyStep_no_new_leave ctx s p hlv hs1 hs2 hsI.1 pid hmem),
      fun pb hpb pid => ?_⟩
    have hne : pb ≠ ctx.d := by have := getPrev_lt hpb; omega
    rw [show (weeklyStep ctx s p).g.asg pb = s.g.asg pb from
      weeklyStep_asg_other ctx s p hne]
    exact hsI.2.2 pb hpb pid
  have hin : ∀ (l : List Pos) (a : AState), KeptOut ctx n a →
      KeptOut ctx n (l.foldl (indepStep ctx) a) := by
    intro l a ha
    refine foldl_rec (KeptOut ctx n) l a ha ?_
    intro s p _ hsI
    refine ⟨indepStep_avail_anti ctx s p hsI.1,
      fun pid hmem => hsI.2.1 pid
        (indepStep_no_new ctx s p hsI.1 hs1 hs2 pid hmem),
      fun pb hpb pid => ?_⟩
    have hne : pb ≠ ctx.d := by have := getPrev_lt hpb; omega
    rw [show (indepStep ctx s p).g.asg pb = s.g.asg pb from
      indepStep_asg_other ctx s p hne]
    exact hsI.2.2 pb hpb pid
  have hst : ∀ (l : List Pos) (a : AState), KeptOut ctx n a →
      KeptOut ctx n (l.foldl (stdStep ctx) a) := by
    intro l a ha
    refine foldl_rec (KeptOut ctx n) l a ha ?_
    intro s p _ hsI
    refine ⟨stdStep_avail_anti ctx s p hsI.1,
      fun pid hmem => hsI.2.1 pid
        (stdStep_no_new ctx s p hsI.1 hs1 hs2 pid hmem),
      fun pb hpb pid => ?_⟩
    have hne : pb ≠ ctx.d := by have := getPrev_lt hpb; omega
    rw [show (stdStep ctx s p).g.asg pb = s.g.asg pb from
      stdStep_asg_other ctx s p hne]
    exact hsI.2.2 pb hpb pid
  have hAll := hst ctx.normalPos _ (hin ctx.normalPos _ (hwk ctx.normalPos _
    (hd ctx.normalPos _ (hq ctx.normalPos _ hInv0))))
  unfold runAttempt
  dsimp only []
  refine ⟨?_, ?_⟩
  · intro pid hmem
    exact hAll.2.1 pid (fallbackPhase_no_new ctx _ hAll.1 pid hmem)
  · intro pb hpb pid hmem
    have hne : pb ≠ ctx.d := by have := getPrev_lt hpb; omega
    rw [show ∀ b : AState, (fallbackPhase ctx b).g.asg pb = b.g.asg pb from
      fun b => fallbackPhase_asg_other ctx b hne] at hmem
    exact hAll.2.2 pb hpb pid hmem

theorem retryLoop_keeps_out (ctx : DayCtx) (pres : String → List String)
    (fuel : Nat) (g : GState) {n : String}
    (hlv : n ∈ ctx.hyN ∨ n ∈ ctx.hfN ∨ n ∈ ctx.hdN)
    (hs1 : n ≠ "未配置") (hs2 : n ≠ "")
    (hpres : ∀ pid, n ∉ pres pid)
    (h2 : ∀ pid, n ∉ g.asg ctx.d pid)
    (h3 : ∀ pb, getPreviousBusinessDay ctx.hol ctx.d = some pb →
      ∀ pid, n ∉ g.asg pb pid) :
    (∀ pid, n ∉ (retryLoop ctx pres fuel g).asg ctx.d pid) ∧
    (∀ pb, getPreviousBusinessDay ctx.hol ctx.d = some pb →
      ∀ pid, n ∉ (retryLoop ctx pres fuel g).asg pb pid) := by
  induction fuel generalizing g with
  | zero => exact ⟨h2, h3⟩
  | succ f ih =>
    unfold retryLoop
    dsimp only []
    have hA := runAttempt_keeps_out ctx pres g hlv hs1 hs2 hpres h2 h3
    split
    · exact hA
    · exact ih _ hA.1 hA.2

theorem specialStaffStep_no_new (d : Int) (p : Pos) (so : SpecialOut)
    (t : Staff) {n : String}
    (hts : t.name = n → ¬ (t.special p.name).contains d = true) :
    ∀ pid, n ∈ (specialStaffStep d p so t).g.asg d pid →
      n ∈ so.g.asg d pid := by
  intro pid hm
  unfold specialStaffStep at hm
  dsimp only [] at hm
  split_ifs at hm with hcont
  all_goals try exact hm
  all_goals
    rcases mem_appendAsg.mp hm with h | ⟨_, _, hveq⟩
  all_goals try exact h
  all_goals exact absurd hcont (hts hveq.symm)

theorem specialPhase_no_new (staffAll : List Staff) (nps : List Pos)
    (st : GState) (d : Int) {n : String}
    (hsp : ∀ t ∈ staffAll, t.name = n →
      ∀ p ∈ nps, ¬ (t.special p.name).contains d = true)
    (h2 : ∀ pid, n ∉ st.asg d pid) :
    ∀ pid, n ∉ (specialPhase staffAll nps st d).g.asg d pid := by
  unfold specialPhase
  refine foldl_rec (fun so : SpecialOut => ∀ pid, n ∉ so.g.asg d pid)
    nps ⟨st, [], []⟩ h2 ?_
  intro so p hp hso
  refine foldl_rec (fun so2 : SpecialOut => ∀ pid, n ∉ so2.g.asg d pid)
    staffAll so hso ?_
  intro so2 t ht hso2 pid hmem
  exact hso2 pid (specialStaffStep_no_new d p so2 t
    (fun htn => hsp t ht htn p hp) pid hmem)

theorem processDay_keeps_out (inp : GenInput) (pre : Int → List String)
    (st : GState) (d : Int) {n : String}
    (hlv : n ∈ leaveNames (fun s => s.holidaysYukyu) (filteredStaff inp) d ∨
           n ∈ leaveNames (fun s => s.holidaysFurikyu) (filteredStaff inp) d ∨
           n ∈ leaveNames (fun s => s.holidaysDaikyu) (filteredStaff inp) d)
    (hs1 : n ≠ "未配置") (hs2 : n ≠ "")
    (hsp : ∀ t ∈ inp.staffAll, t.name = n →
      ∀ p ∈ normalPositions inp, ¬ (t.special p.name).contains d = true)
    (h2 : ∀ pid, n ∉ st.asg d pid)
    (h3 : ∀ pb, getPreviousBusinessDay inp.hol d = some pb →
      ∀ pid, n ∉ st.asg pb pid) :
    ∀ pid, n ∉ (processDay inp pre st d).asg d pid := by
  have hw := (weekReset_proj st d).1
  have hspecial : ∀ pid, n ∉ (specialPhase inp.staffAll (normalPositions inp)
      (weekReset st d) d).g.asg d pid :=
    specialPhase_no_new _ _ _ _ hsp (by rw [hw]; exact h2)
  have hspecialPb : ∀ pb, getPreviousBusinessDay inp.hol d = some pb →
      ∀ pid, n ∉ (specialPhase inp.staffAll (normalPositions inp)
        (weekReset st d) d).g.asg pb pid := by
    intro pb hpb pid
    have hne : pb ≠ d := by have := getPrev_lt hpb; omega
    rw [show (specialPhase inp.staffAll (normalPositions inp)
        (weekReset st d) d).g.asg pb = _ from
      specialPhase_asg_other _ _ _ _ hne]
    rw [hw]
    exact h3 pb hpb pid
  unfold processDay
  split
  · exact hspecial
  · exact (retryLoop_keeps_out _ _ 10 _ hlv hs1 hs2 hspecial hspecial
      hspecialPb).1

/-- C1 (amended): a staff member on leave (any of the three sets) on a date
of the generated month appears in no position's list for that date,
*provided* no staff member with the same name holds a special-assignment
date for that date (the special/override phase ignores leave) and the name
is not the dependency-copied value of any position (the dependency phase
copies the previous business day's last assignee without a leave check —
formulated here as: the name is absent from the previous business day's
lists).  The quota, weekly-sticky, independent, standard and fallback
phases by themselves never assign a staff member on leave. -/
theorem leave_staff_not_assigned (inp : GenInput) (k : Nat) (s : Staff)
    (hk : k < inp.len)
    (hs : s ∈ filteredStaff inp)
    (hlv : onLeave s (inp.first + (k : Int)))
    (hn1 : s.name ≠ "未配置") (hn2 : s.name ≠ "")
    (hsp : ∀ t ∈ inp.staffAll, t.name = s.name →
      ∀ p ∈ normalPositions inp,
        ¬ (t.special p.name).contains (inp.first + (k : Int)) = true)
    (hdep : ∀ pb,
      getPreviousBusinessDay inp.hol (inp.first + (k : Int)) = some pb →
      ∀ pid, s.name ∉ (runGenerate inp).asg pb pid) :
    ∀ pid, s.name ∉ (runGenerate inp).asg (inp.first + (k : Int)) pid := by
  set d : Int := inp.first + (k : Int) with hdd
  set stk : GState := (getDatesInMonth inp.first k).foldl
    (processDay inp (preCalcAll inp)) initGState with hstkdef
  have hdates : getDatesInMonth inp.first inp.len =
      getDatesInMonth inp.first k ++ d ::
        getDatesInMonth (d + 1) (inp.len - k - 1) := by
    conv_lhs => rw [show inp.len = k + ((inp.len - k - 1) + 1) from by omega]
    rw [getDatesInMonth_append, getDatesInMonth_cons, hdd]
  have hdA : d ∉ getDatesInMonth inp.first k := by
    intro hmem
    rcases mem_getDatesInMonth.mp hmem with ⟨j, hj, hx⟩
    rw [hdd] at hx
    omega
  have hdB : d ∉ getDatesInMonth (d + 1) (inp.len - k - 1) := by
    intro hmem
    rcases mem_getDatesInMonth.mp hmem with ⟨j, hj, hx⟩
    omega
  have hpbB : ∀ pb, pb < d →
      pb ∉ getDatesInMonth (d + 1) (inp.len - k - 1) := by
    intro pb hpb hmem
    rcases mem_getDatesInMonth.mp hmem with ⟨j, hj, hx⟩
    omega
  have hrun : runGenerate inp =
      (getDatesInMonth (d + 1) (inp.len - k - 1)).foldl
        (processDay inp (preCalcAll inp))
        (processDay inp (preCalcAll inp) stk d) := by
    unfold runGenerate
    rw [hdates, List.foldl_append, List.foldl_cons, ← hstkdef]
  have hstk_d : ∀ pid, s.name ∉ stk.asg d pid := by
    intro pid
    rw [hstkdef, foldl_processDay_frame inp _ _ _ hdA]
    exact List.not_mem_nil _
  have hres_pb : ∀ pb, pb < d →
      (runGenerate inp).asg pb = stk.asg pb := by
    intro pb hpb
    rw [hrun, foldl_processDay_frame inp _ _ _ (hpbB pb hpb)]
    exact processDay_asg_other inp _ stk d (by omega)
  have h3' : ∀ pb, getPreviousBusinessDay inp.hol d = some pb →
      ∀ pid, s.name ∉ stk.asg pb pid := by
    intro pb hpb pid
    have hlt := getPrev_lt hpb
    have hh := hdep pb hpb pid
    rw [hres_pb pb hlt] at hh
    exact hh
  have hlvN :
      s.name ∈ leaveNames (fun t => t.holidaysYukyu) (filteredStaff inp) d ∨
      s.name ∈ leaveNames (fun t => t.holidaysFurikyu) (filteredStaff inp) d ∨
      s.name ∈ leaveNames (fun t => t.holidaysDaikyu) (filteredStaff inp) d := by
    rcases hlv with h | h | h
    · exact Or.inl (List.mem_map.mpr ⟨s,
        List.mem_filter.mpr ⟨hs, (contains_int_true_iff _ _).mpr h⟩, rfl⟩)
    · exact Or.inr (Or.inl (List.mem_map.mpr ⟨s,
        List.mem_filter.mpr ⟨hs, (contains_int_true_iff _ _).mpr h⟩, rfl⟩))
    · exact Or.inr (Or.inr (List.mem_map.mpr ⟨s,
        List.mem_filter.mpr ⟨hs, (contains_int_true_iff _ _).mpr h⟩, rfl⟩))
  intro pid
  rw [hrun, foldl_processDay_frame inp _ _ _ hdB]
  exact processDay_keeps_out inp _ stk d hlvN hn1 hn2 hsp hstk_d h3' pid

/-- Witness for the C1 theorem: in `inpW1`, staff `X` is on paid leave on
day 1 and indeed appears in no list for day 1. -/
theorem leave_staff_not_assigned_witness :
    (0 : Nat) < inpW1.len ∧
    onLeave { staff0 "X" "X" ["A"] with holidaysYukyu := [1] }
      (inpW1.first + ((0 : Nat) : Int)) ∧
    (∀ pid, "X" ∉ (runGenerate inpW1).asg (inpW1.first + ((0 : Nat) : Int)) pid) := by
  refine ⟨by decide, by decide, ?_⟩
  have hdepW : ∀ pb,
      getPreviousBusinessDay inpW1.hol (inpW1.first + ((0 : Nat) : Int)) = some pb →
      ∀ pid, "X" ∉ (runGenerate inpW1).asg pb pid := by
    intro pb hpb pid
    have he : getPreviousBusinessDay inpW1.hol (inpW1.first + ((0 : Nat) : Int)) =
        some (-2) := by decide
    rw [he] at hpb
    injection hpb with h1
    subst h1
    show "X" ∉ (runGenerate inpW1).asg (-2) pid
    unfold runGenerate
    rw [foldl_processDay_frame inpW1 (preCalcAll inpW1)
      (getDatesInMonth inpW1.first inpW1.len) initGState
      (show (-2 : Int) ∉ getDatesInMonth inpW1.first inpW1.len by decide)]
    exact List.not_mem_nil _
  exact leave_staff_not_assigned inpW1 0
    { staff0 "X" "X" ["A"] with holidaysYukyu := [1] }
    (by decide) (List.mem_cons_self _ _) (by decide) (by decide) (by decide)
    (by decide) hdepW

/-! ## Per-position length accounting (toward claim C5) -/

theorem appendAsg_same (a : Int → String → List String) (d : Int)
    (pid n : String) : appendAsg a d pid n d pid = a d pid ++ [n] := by
  unfold appendAsg
  exact if_pos ⟨rfl, rfl⟩

theorem isEmpty_true_eq_nil {α : Type} {l : List α} (h : l.isEmpty = true) :
    l = [] := by
  cases l with
  | nil => rfl
  | cons x t => exact Bool.noConfusion h

theorem nodup_id_split {l : List Pos} (hnd : (l.map (fun q => q.id)).Nodup)
    {p : Pos} (hp : p ∈ l) :
    ∃ A B, l = A ++ p :: B ∧ p.id ∉ A.map (fun q => q.id) ∧
      p.id ∉ B.map (fun q => q.id) := by
  rcases List.append_of_mem hp with ⟨A, B, rfl⟩
  rw [List.map_append, List.map_cons, List.nodup_append] at hnd
  rcases hnd with ⟨h1, h2, h3⟩
  rw [List.nodup_cons] at h2
  refine ⟨A, B, rfl, ?_, h2.1⟩
  intro hmem
  exact h3 hmem (List.mem_cons_self _ _)

theorem foldl_step_asg_id_frame {step : AState → Pos → AState}
    {d : Int} {pid : String} (l : List Pos) (a : AState)
    (hstep : ∀ (s : AState), ∀ q ∈ l,
      (step s q).g.asg d pid = s.g.asg d pid) :
    (l.foldl step a).g.asg d pid = a.g.asg d pid := by
  refine foldl_rec (fun s : AState => s.g.asg d pid = a.g.asg d pid) _ _ rfl ?_
  intro s q hq hs
  rw [hstep s q hq, hs]

theorem quotaStep_asg_id (ctx : DayCtx) (a : AState) (q : Pos) {pid : String}
    (h : q.id ≠ pid) :
    (quotaStep ctx a q).g.asg ctx.d pid = a.g.asg ctx.d pid := by
  unfold quotaStep
  split
  · rfl
  · split
    · rfl
    · split
      · rfl
      · dsimp only []
        split
        · exact appendAsg_ne (fun hc => h hc.2.symm)
        · exact appendAsg_ne (fun hc => h hc.2.symm)

theorem depStep_asg_id (ctx : DayCtx) (a : AState) (q : Pos) {pid : String}
    (h : q.id ≠ pid) :
    (depStep ctx a q).g.asg ctx.d pid = a.g.asg ctx.d pid := by
  unfold depStep
  split
  · rfl
  · split
    · exact appendAsg_ne (fun hc => h hc.2.symm)
    · split
      · exact appendAsg_ne (fun hc => h hc.2.symm)
      · exact appendAsg_ne (fun hc => h hc.2.symm)

theorem weeklyFresh_asg_id (ctx : DayCtx) (a : AState) (q : Pos)
    (fw : Option Int) {pid : String} (h : q.id ≠ pid) :
    (weeklyStep.weeklyFresh ctx a q fw).g.asg ctx.d pid = a.g.asg ctx.d pid := by
  unfold weeklyStep.weeklyFresh
  dsimp only []
  split
  · exact appendAsg_ne (fun hc => h hc.2.symm)
  · exact appendAsg_ne (fun hc => h hc.2.symm)

theorem weeklyStep_asg_id (ctx : DayCtx) (a : AState) (q : Pos) {pid : String}
    (h : q.id ≠ pid) :
    (weeklyStep ctx a q).g.asg ctx.d pid = a.g.asg ctx.d pid := by
  unfold weeklyStep
  split
  · rfl
  · split
    · rfl
    · split
      · rfl
      · split
        · split
          · exact weeklyFresh_asg_id ctx a q _ h
          · exact appendAsg_ne (fun hc => h hc.2.symm)
        · exact weeklyFresh_asg_id ctx a q _ h

theorem indepStep_asg_id (ctx : DayCtx) (a : AState) (q : Pos) {pid : String}
    (h : q.id ≠ pid) :
    (indepStep ctx a q).g.asg ctx.d pid = a.g.asg ctx.d pid := by
  unfold indepStep
  split
  · rfl
  · split
    · rfl
    · dsimp only []
      split
      · exact appendAsg_ne (fun hc => h hc.2.symm)
      · exact appendAsg_ne (fun hc => h hc.2.symm)

theorem stdStep_asg_id (ctx : DayCtx) (a : AState) (q : Pos) {pid : String}
    (h : q.id ≠ pid) :
    (stdStep ctx a q).g.asg ctx.d pid = a.g.asg ctx.d pid := by
  unfold stdStep
  split
  · rfl
  · split
    · rfl
    · split
      · rfl
      · split
        · rfl
        · dsimp only []
          split
          · exact appendAsg_ne (fun hc => h hc.2.symm)
          · exact appendAsg_ne (fun hc => h hc.2.symm)

theorem quotaStep_push (ctx : DayCtx) (a : AState) (q : Pos)
    (h1 : q.dependence = none) (h2 : q.id ∉ ctx.refIds)
    (h3 : q.staffSeveral = true) :
    ∃ v, (quotaStep ctx a q).g.asg ctx.d q.id = a.g.asg ctx.d q.id ++ [v] := by
  unfold quotaStep
  split_ifs
  any_goals (simp_all; done)
  dsimp only []
  split <;> exact ⟨_, appendAsg_same _ _ _ _⟩

theorem depStep_push (ctx : DayCtx) (a : AState) (q : Pos) (t : String)
    (h1 : q.dependence = some t) :
    ∃ v, (depStep ctx a q).g.asg ctx.d q.id = a.g.asg ctx.d q.id ++ [v] := by
  unfold depStep
  rw [h1]
  dsimp only []
  split
  · exact ⟨_, appendAsg_same _ _ _ _⟩
  · split
    · exact ⟨_, appendAsg_same _ _ _ _⟩
    · exact ⟨_, appendAsg_same _ _ _ _⟩

theorem weeklyFresh_push (ctx : DayCtx) (a : AState) (q : Pos)
    (fw : Option Int) :
    ∃ v, (weeklyStep.weeklyFresh ctx a q fw).g.asg ctx.d q.id =
      a.g.asg ctx.d q.id ++ [v] := by
  unfold weeklyStep.weeklyFresh
  dsimp only []
  split
  · exact ⟨_, appendAsg_same _ _ _ _⟩
  · exact ⟨_, appendAsg_same _ _ _ _⟩

theorem weeklyStep_push (ctx : DayCtx) (a : AState) (q : Pos)
    (h1 : q.dependence = none) (h2 : q.sameStaffWeekly = true)
    (h3 : q.staffSeveral = false) :
    ∃ v, (weeklyStep ctx a q).g.asg ctx.d q.id = a.g.asg ctx.d q.id ++ [v] := by
  unfold weeklyStep
  split_ifs
  any_goals (simp_all; done)
  split
  · split
    · exact weeklyFresh_push ctx a q _
    · exact ⟨_, appendAsg_same _ _ _ _⟩
  · exact weeklyFresh_push ctx a q _

theorem indepStep_push (ctx : DayCtx) (a : AState) (q : Pos)
    (h1 : q.dependence = none) (h2 : q.id ∈ ctx.refIds) :
    ∃ v, (indepStep ctx a q).g.asg ctx.d q.id = a.g.asg ctx.d q.id ++ [v] := by
  unfold indepStep
  split_ifs
  any_goals (simp_all; done)
  dsimp only []
  split <;> exact ⟨_, appendAsg_same _ _ _ _⟩

theorem stdStep_push (ctx : DayCtx) (a : AState) (q : Pos)
    (h1 : q.dependence = none) (h2 : q.id ∉ ctx.refIds)
    (h3 : q.sameStaffWeekly = false) (h4 : q.staffSeveral = false) :
    ∃ v, (stdStep ctx a q).g.asg ctx.d q.id = a.g.asg ctx.d q.id ++ [v] := by
  unfold stdStep
  split_ifs
  any_goals (simp_all; done)
  dsimp only []
  split <;> exact ⟨_, appendAsg_same _ _ _ _⟩

theorem quotaStep_noguard (ctx : DayCtx) (a : AState) (q : Pos)
    (h : ¬(q.dependence = none ∧ q.id ∉ ctx.refIds ∧ q.staffSeveral = true)) :
    (quotaStep ctx a q).g.asg ctx.d q.id = a.g.asg ctx.d q.id := by
  unfold quotaStep
  split_ifs with hA hB hC
  any_goals rfl
  have h1 : q.dependence = none := by
    cases hqd : q.dependence with
    | none => rfl
    | some t => exact absurd (by simp [hqd]) hA
  have h3 : q.staffSeveral = true := by
    cases hqs : q.staffSeveral with
    | false => exact absurd (by simp [hqs]) hC
    | true => rfl
  exact (h ⟨h1, hB, h3⟩).elim

theorem depStep_noguard (ctx : DayCtx) (a : AState) (q : Pos)
    (h : q.dependence = none) :
    (depStep ctx a q).g.asg ctx.d q.id = a.g.asg ctx.d q.id := by
  unfold depStep
  rw [h]

theorem weeklyStep_noguard (ctx : DayCtx) (a : AState) (q : Pos)
    (h : ¬(q.dependence = none ∧ q.sameStaffWeekly = true ∧
      q.staffSeveral = false)) :
    (weeklyStep ctx a q).g.asg ctx.d q.id = a.g.asg ctx.d q.id := by
  unfold weeklyStep
  split_ifs with hA hB hC
  any_goals rfl
  have h1 : q.dependence = none := by
    cases hqd : q.dependence with
    | none => rfl
    | some t => exact absurd (by simp [hqd]) hA
  have h2 : q.sameStaffWeekly = true := by
    cases hqs : q.sameStaffWeekly with
    | false => exact absurd (by simp [hqs]) hB
    | true => rfl
  have h3 : q.staffSeveral = false := by
    cases hqs : q.staffSeveral with
    | false => rfl
    | true => exact absurd (by simp [hqs]) hC
  exact (h ⟨h1, h2, h3⟩).elim

theorem indepStep_noguard (ctx : DayCtx) (a : AState) (q : Pos)
    (h : ¬(q.dependence = none ∧ q.id ∈ ctx.refIds)) :
    (indepStep ctx a q).g.asg ctx.d q.id = a.g.asg ctx.d q.id := by
  unfold indepStep
  split_ifs with hA hB
  any_goals rfl
  have h1 : q.dependence = none := by
    cases hqd : q.dependence with
    | none => rfl
    | some t => exact absurd (by simp [hqd]) hA
  first
    | exact (h ⟨h1, not_not.mp hB⟩).elim
    | exact (h ⟨h1, hB⟩).elim

theorem stdStep_noguard (ctx : DayCtx) (a : AState) (q : Pos)
    (h : ¬(q.dependence = none ∧ q.id ∉ ctx.refIds ∧
      q.sameStaffWeekly = false ∧ q.staffSeveral = false)) :
    (stdStep ctx a q).g.asg ctx.d q.id = a.g.asg ctx.d q.id := by
  unfold stdStep
  split_ifs with hA hB hC hD
  any_goals rfl
  have h1 : q.dependence = none := by
    cases hqd : q.dependence with
    | none => rfl
    | some t => exact absurd (by simp [hqd]) hA
  have h3 : q.sameStaffWeekly = false := by
    cases hqs : q.sameStaffWeekly with
    | false => rfl
    | true => exact absurd (by simp [hqs]) hC
  have h4 : q.staffSeveral = false := by
    cases hqs : q.staffSeveral with
    | false => rfl
    | true => exact absurd (by simp [hqs]) hD
  exact (h ⟨h1, hB, h3, h4⟩).elim

theorem foldl_step_len (step : AState → Pos → AState) (d : Int) {p : Pos}
    (l : List Pos) (a : AState) (c : Prop) [Decidable c]
    (hnd : (l.map (fun q => q.id)).Nodup) (hp : p ∈ l)
    (hframe : ∀ (s : AState) (q : Pos), q.id ≠ p.id →
      (step s q).g.asg d p.id = s.g.asg d p.id)
    (hpush : c → ∀ s : AState, ∃ v,
      (step s p).g.asg d p.id = s.g.asg d p.id ++ [v])
    (hskip : ¬c → ∀ s : AState, (step s p).g.asg d p.id = s.g.asg d p.id) :
    ((l.foldl step a).g.asg d p.id).length =
      (a.g.asg d p.id).length + (if c then 1 else 0) := by
  rcases nodup_id_split hnd hp with ⟨A, B, hl, hA, hB⟩
  rw [hl, List.foldl_append, List.foldl_cons]
  have hAfr : (A.foldl step a).g.asg d p.id = a.g.asg d p.id :=
    foldl_step_asg_id_frame A a (fun s q hq => hframe s q
      (fun hc => hA (List.mem_map.mpr ⟨q, hq, hc⟩)))
  have hBfr : ∀ s : AState,
      (B.foldl step s).g.asg d p.id = s.g.asg d p.id :=
    fun s => foldl_step_asg_id_frame B s (fun s2 q hq => hframe s2 q
      (fun hc => hB (List.mem_map.mpr ⟨q, hq, hc⟩)))
  rw [hBfr]
  by_cases hc : c
  · rcases hpush hc (A.foldl step a) with ⟨v, hv⟩
    rw [if_pos hc, hv, hAfr, List.length_append]
    rfl
  · rw [if_neg hc, hskip hc, hAfr]
    rfl

theorem fallbackStep_keep (ctx : DayCtx) (a : AState) (t : Staff) {p : Pos}
    (huniq : ∀ q ∈ ctx.normalPos, q.id = p.id → q = p)
    (hm : p.allowMultiple = false)
    (hne : a.g.asg ctx.d p.id ≠ []) :
    (fallbackStep ctx a t).g.asg ctx.d p.id = a.g.asg ctx.d p.id := by
  unfold fallbackStep
  dsimp only []
  split
  · rfl
  · next cp tail heq =>
    have hcpmem : cp ∈ ctx.normalPos.filter (fun q =>
        !q.staffSeveral && t.availablePositions.contains q.name &&
        (q.allowMultiple || (a.g.asg ctx.d q.id).isEmpty)) := by
      rw [heq]
      exact List.mem_cons_self _ _
    have h1 := List.mem_filter.mp hcpmem
    have hcpid : cp.id ≠ p.id := by
      intro hid
      have hcpp : cp = p := huniq cp h1.1 hid
      have hpred := h1.2
      rw [hcpp] at hpred
      simp only [Bool.and_eq_true, Bool.or_eq_true] at hpred
      rcases hpred with ⟨-, hor⟩
      rcases hor with hmul | hemp
      · rw [hm] at hmul
        exact Bool.noConfusion hmul
      · exact hne (isEmpty_true_eq_nil hemp)
    exact appendAsg_ne (fun hc => hcpid hc.2.symm)

theorem fallbackPhase_keep (ctx : DayCtx) (a : AState) {p : Pos}
    (huniq : ∀ q ∈ ctx.normalPos, q.id = p.id → q = p)
    (hm : p.allowMultiple = false)
    (hne : a.g.asg ctx.d p.id ≠ []) :
    (fallbackPhase ctx a).g.asg ctx.d p.id = a.g.asg ctx.d p.id := by
  unfold fallbackPhase
  split
  · rfl
  · dsimp only []
    refine foldl_rec
      (fun s : AState => s.g.asg ctx.d p.id = a.g.asg ctx.d p.id) _ _ rfl ?_
    intro s t ht hs
    rw [fallbackStep_keep ctx s t huniq hm (by rw [hs]; exact hne), hs]

theorem attempt_core_len (ctx : DayCtx) (a0 : AState) {p : Pos}
    (hnd : (ctx.normalPos.map (fun q => q.id)).Nodup) (hp : p ∈ ctx.normalPos)
    (hm : p.allowMultiple = false)
    (hcombo : ¬(p.dependence = none ∧ p.id ∈ ctx.refIds ∧
      p.sameStaffWeekly = true ∧ p.staffSeveral = false))
    (h0 : a0.g.asg ctx.d p.id = []) :
    ((fallbackPhase ctx
      (ctx.normalPos.foldl (stdStep ctx)
        (ctx.normalPos.foldl (indepStep ctx)
          (ctx.normalPos.foldl (weeklyStep ctx)
            (ctx.normalPos.foldl (depStep ctx)
              (ctx.normalPos.foldl (quotaStep ctx) a0)))))).g.asg
        ctx.d p.id).length = 1 := by
  have huniq : ∀ q ∈ ctx.normalPos, q.id = p.id → q = p :=
    fun q hq hid => List.inj_on_of_nodup_map hnd hq hp hid
  set s1 : AState := ctx.normalPos.foldl (quotaStep ctx) a0 with hs1d
  set s2 : AState := ctx.normalPos.foldl (depStep ctx) s1 with hs2d
  set s3 : AState := ctx.normalPos.foldl (weeklyStep ctx) s2 with hs3d
  set s4 : AState := ctx.normalPos.foldl (indepStep ctx) s3 with hs4d
  set s5 : AState := ctx.normalPos.foldl (stdStep ctx) s4 with hs5d
  have h1 := foldl_step_len (quotaStep ctx) ctx.d ctx.normalPos a0
    (p.dependence = none ∧ p.id ∉ ctx.refIds ∧ p.staffSeveral = true) hnd hp
    (fun s q hne => quotaStep_asg_id ctx s q hne)
    (fun hc s => quotaStep_push ctx s p hc.1 hc.2.1 hc.2.2)
    (fun hc s => quotaStep_noguard ctx s p hc)
  have h2 := foldl_step_len (depStep ctx) ctx.d ctx.normalPos s1
    (p.dependence ≠ none) hnd hp
    (fun s q hne => depStep_asg_id ctx s q hne)
    (fun hc s => by
      cases hqd : p.dependence with
      | none => exact absurd hqd hc
      | some t => exact depStep_push ctx s p t hqd)
    (fun hc s => depStep_noguard ctx s p (not_not.mp hc))
  have h3 := foldl_step_len (weeklyStep ctx) ctx.d ctx.normalPos s2
    (p.dependence = none ∧ p.sameStaffWeekly = true ∧ p.staffSeveral = false)
    hnd hp
    (fun s q hne => weeklyStep_asg_id ctx s q hne)
    (fun hc s => weeklyStep_push ctx s p hc.1 hc.2.1 hc.2.2)
    (fun hc s => weeklyStep_noguard ctx s p hc)
  have h4 := foldl_step_len (indepStep ctx) ctx.d ctx.normalPos s3
    (p.dependence = none ∧ p.id ∈ ctx.refIds) hnd hp
    (fun s q hne => indepStep_asg_id ctx s q hne)
    (fun hc s => indepStep_push ctx s p hc.1 hc.2)
    (fun hc s => indepStep_noguard ctx s p hc)
  have h5 := foldl_step_len (stdStep ctx) ctx.d ctx.normalPos s4
    (p.dependence = none ∧ p.id ∉ ctx.refIds ∧ p.sameStaffWeekly = false ∧
      p.staffSeveral = false) hnd hp
    (fun s q hne => stdStep_asg_id ctx s q hne)
    (fun hc s => stdStep_push ctx s p hc.1 hc.2.1 hc.2.2.1 hc.2.2.2)
    (fun hc s => stdStep_noguard ctx s p hc)
  rw [← hs1d] at h1
  rw [← hs2d] at h2
  rw [← hs3d] at h3
  rw [← hs4d] at h4
  rw [← hs5d] at h5
  have hlen5 : (s5.g.asg ctx.d p.id).length = 1 := by
    rw [h5, h4, h3, h2, h1, h0]
    simp only [List.length_nil]
    by_cases hdep : p.dependence = none
    · by_cases href : p.id ∈ ctx.refIds
      · cases hw : p.sameStaffWeekly with
        | false => simp [hdep, href, hw]
        | true =>
          cases hsv : p.staffSeveral with
          | false => exact absurd ⟨hdep, href, hw, hsv⟩ hcombo
          | true => simp [hdep, href, hw, hsv]
      · cases hw : p.sameStaffWeekly <;> cases hsv : p.staffSeveral <;>
          simp [hdep, href, hw, hsv]
    · simp [hdep]
  have hne5 : s5.g.asg ctx.d p.id ≠ [] := by
    intro hcl
    rw [hcl] at hlen5
    exact absurd hlen5 (by simp)
  rw [fallbackPhase_keep ctx s5 huniq hm hne5]
  exact hlen5

theorem runAttempt_len (ctx : DayCtx) (pres : String → List String)
    (g : GState) {p : Pos}
    (hnd : (ctx.normalPos.map (fun q => q.id)).Nodup) (hp : p ∈ ctx.normalPos)
    (hm : p.allowMultiple = false)
    (hcombo : ¬(p.dependence = none ∧ p.id ∈ ctx.refIds ∧
      p.sameStaffWeekly = true ∧ p.staffSeveral = false))
    (hpres : pres p.id = []) :
    ((runAttempt ctx pres g).1.asg ctx.d p.id).length = 1 := by
  have h0 : resetAsg (ctx.normalPos.map (fun q => q.id)) ctx.d pres g.asg
      ctx.d p.id = [] := by
    unfold resetAsg
    rw [if_pos ⟨rfl, List.mem_map.mpr ⟨p, hp, rfl⟩⟩]
    exact hpres
  unfold runAttempt
  dsimp only []
  exact attempt_core_len ctx _ hnd hp hm hcombo h0

theorem retryLoop_len (ctx : DayCtx) (pres : String → List String) {p : Pos}
    (hnd : (ctx.normalPos.map (fun q => q.id)).Nodup) (hp : p ∈ ctx.normalPos)
    (hm : p.allowMultiple = false)
    (hcombo : ¬(p.dependence = none ∧ p.id ∈ ctx.refIds ∧
      p.sameStaffWeekly = true ∧ p.staffSeveral = false))
    (hpres : pres p.id = []) :
    ∀ (n : Nat), 0 < n → ∀ (g : GState),
      ((retryLoop ctx pres n g).asg ctx.d p.id).length = 1 := by
  intro n
  induction n with
  | zero => intro h; exact absurd h (by simp)
  | succ m ih =>
    intro _ g
    show ((if (runAttempt ctx pres g).2 then (runAttempt ctx pres g).1
      else retryLoop ctx pres m (runAttempt ctx pres g).1).asg
        ctx.d p.id).length = 1
    split
    · exact runAttempt_len ctx pres g hnd hp hm hcombo hpres
    · cases m with
      | zero =>
        show (((runAttempt ctx pres g).1).asg ctx.d p.id).length = 1
        exact runAttempt_len ctx pres g hnd hp hm hcombo hpres
      | succ k => exact ih (Nat.succ_pos k) _

theorem specialPhase_asg_id (staffAll : List Staff) (nps : List Pos)
    (st : GState) (d : Int) {pid : String}
    (hsp : ∀ t ∈ staffAll, ∀ q ∈ nps, q.id = pid →
      ¬ (t.special q.name).contains d = true) :
    (specialPhase staffAll nps st d).g.asg d pid = st.asg d pid := by
  unfold specialPhase
  refine foldl_rec (fun so : SpecialOut => so.g.asg d pid = st.asg d pid)
    _ _ rfl ?_
  intro so q hq hso
  refine foldl_rec (fun so2 : SpecialOut => so2.g.asg d pid = st.asg d pid)
    _ _ hso ?_
  intro so2 t ht h2
  by_cases hid : q.id = pid
  · have hcf := hsp t ht q hq hid
    unfold specialStaffStep
    split
    · next hcont => exact absurd hcont hcf
    · exact h2
  · unfold specialStaffStep
    split
    · split
      · exact h2
      · dsimp only []
        have ha1 : (if t.name ∈ so2.g.asg d q.id then so2.g.asg
            else appendAsg so2.g.asg d q.id t.name) d pid =
            so2.g.asg d pid := by
          split
          · rfl
          · exact appendAsg_ne (fun hc => hid hc.2.symm)
        split
        · exact ha1.trans h2
        · split
          · exact ha1.trans h2
          · split
            · exact ha1.trans h2
            · exact ha1.trans h2
    · exact h2

theorem processDay_len (inp : GenInput) (pre : Int → List String)
    (st : GState) (d : Int) {p : Pos}
    (hnd : ((normalPositions inp).map (fun q => q.id)).Nodup)
    (hp : p ∈ normalPositions inp)
    (hm : p.allowMultiple = false)
    (hcombo : ¬(p.dependence = none ∧ p.id ∈ referencedIds inp ∧
      p.sameStaffWeekly = true ∧ p.staffSeveral = false))
    (hsp : ∀ t ∈ inp.staffAll, ∀ q ∈ normalPositions inp, q.id = p.id →
      ¬ (t.special q.name).contains d = true)
    (hst : st.asg d p.id = []) :
    ((processDay inp pre st d).asg d p.id).length ≤ 1 := by
  have hpres : (specialPhase inp.staffAll (normalPositions inp)
      (weekReset st d) d).g.asg d p.id = [] := by
    rw [specialPhase_asg_id _ _ _ _ hsp, (weekReset_proj st d).1, hst]
  unfold processDay
  dsimp only []
  split
  · rw [hpres]
    simp
  · exact le_of_eq (retryLoop_len _ _ hnd hp hm hcombo hpres 10 (by decide) _)

/-- C5 (amended): a non-`allowMultiple` position's list for a date holds at
most one name, *provided* no staff member's special-assignment dates target
that position on that date (the special/override phase appends with no
length check) and the position is not simultaneously `sameStaffWeekly`,
independent and referenced by some `dependence` (such a position is filled
by both the weekly-sticky and the referenced-independent phases of the same
attempt).  Position ids must be distinct.  Under these hypotheses every
retry attempt leaves exactly one name (each matching phase appends exactly
one, the fallback only fills empty lists) and every attempt starts by
resetting the date's lists, so the final roster holds at most one. -/
theorem nonmultiple_stays_single (inp : GenInput) (k : Nat) (p : Pos)
    (hk : k < inp.len)
    (hnd : ((normalPositions inp).map (fun q => q.id)).Nodup)
    (hp : p ∈ normalPositions inp)
    (hm : p.allowMultiple = false)
    (hcombo : ¬(p.dependence = none ∧ p.id ∈ referencedIds inp ∧
      p.sameStaffWeekly = true ∧ p.staffSeveral = false))
    (hsp : ∀ t ∈ inp.staffAll, ∀ q ∈ normalPositions inp, q.id = p.id →
      ¬ (t.special q.name).contains (inp.first + (k : Int)) = true) :
    ((runGenerate inp).asg (inp.first + (k : Int)) p.id).length ≤ 1 := by
  set d : Int := inp.first + (k : Int) with hdd
  set stk : GState := (getDatesInMonth inp.first k).foldl
    (processDay inp (preCalcAll inp)) initGState with hstkdef
  have hdates : getDatesInMonth inp.first inp.len =
      getDatesInMonth inp.first k ++ d ::
        getDatesInMonth (d + 1) (inp.len - k - 1) := by
    conv_lhs => rw [show inp.len = k + ((inp.len - k - 1) + 1) from by omega]
    rw [getDatesInMonth_append, getDatesInMonth_cons, hdd]
  have hdA : d ∉ getDatesInMonth inp.first k := by
    intro hmem
    rcases mem_getDatesInMonth.mp hmem with ⟨j, hj, hx⟩
    rw [hdd] at hx
    omega
  have hdB : d ∉ getDatesInMonth (d + 1) (inp.len - k - 1) := by
    intro hmem
    rcases mem_getDatesInMonth.mp hmem with ⟨j, hj, hx⟩
    omega
  have hrun : runGenerate inp =
      (getDatesInMonth (d + 1) (inp.len - k - 1)).foldl
        (processDay inp (preCalcAll inp))
        (processDay inp (preCalcAll inp) stk d) := by
    unfold runGenerate
    rw [hdates, List.foldl_append, List.foldl_cons]
  have hstd : stk.asg d p.id = [] := by
    rw [hstkdef, foldl_processDay_frame inp _ _ _ hdA]
    rfl
  rw [hrun, foldl_processDay_frame inp _ _ _ hdB]
  exact processDay_len inp _ stk d hnd hp hm hcombo hsp hstd

/-- Witness for the C5 theorem: in `inpW5` the plain position `A`
(`allowMultiple = false`) ends the run with at most one name on day 1. -/
theorem nonmultiple_stays_single_witness :
    (pos0 "A" "A") ∈ normalPositions inpW5 ∧
    ((runGenerate inpW5).asg (inpW5.first + ((0 : Nat) : Int))
      (pos0 "A" "A").id).length ≤ 1 :=
  ⟨by decide, nonmultiple_stays_single inpW5 0 (pos0 "A" "A") (by decide)
    (by decide) (by decide) (by decide) (by decide) (by decide)⟩

/-! ## Dependent-position value tracking (toward claim C2) -/

theorem depSource_congr (g1 g2 : GState) (hol : Int → Bool) (d : Int)
    (q : String) (h : ∀ pb, pb < d → g1.asg pb q = g2.asg pb q) :
    depSource g1 hol d q = depSource g2 hol d q := by
  unfold depSource
  cases hpb : getPreviousBusinessDay hol d with
  | none => rfl
  | some pb =>
    dsimp only []
    rw [h pb (getPrev_lt hpb)]

theorem depStep_value (ctx : DayCtx) (a : AState) (p : Pos) (q : String)
    (hdep : p.dependence = some q) :
    (depStep ctx a p).g.asg ctx.d p.id =
      a.g.asg ctx.d p.id ++ [depSource a.g ctx.hol ctx.d q] := by
  unfold depStep depSource
  rw [hdep]
  cases hpb : getPreviousBusinessDay ctx.hol ctx.d with
  | none =>
    dsimp only []
    exact appendAsg_same _ _ _ _
  | some pb =>
    dsimp only []
    cases hlast : (a.g.asg pb q).getLast? with
    | none =>
      dsimp only []
      exact appendAsg_same _ _ _ _
    | some v =>
      dsimp only []
      exact appendAsg_same _ _ _ _

theorem attempt_core_dep (ctx : DayCtx) (a0 : AState) {p : Pos} {q : String}
    (hnd : (ctx.normalPos.map (fun r => r.id)).Nodup) (hp : p ∈ ctx.normalPos)
    (hdep : p.dependence = some q) (hm : p.allowMultiple = false)
    (h0 : a0.g.asg ctx.d p.id = []) :
    ((fallbackPhase ctx
      (ctx.normalPos.foldl (stdStep ctx)
        (ctx.normalPos.foldl (indepStep ctx)
          (ctx.normalPos.foldl (weeklyStep ctx)
            (ctx.normalPos.foldl (depStep ctx)
              (ctx.normalPos.foldl (quotaStep ctx) a0)))))).g.asg
        ctx.d p.id) = [depSource a0.g ctx.hol ctx.d q] := by
  have huniq : ∀ r ∈ ctx.normalPos, r.id = p.id → r = p :=
    fun r hr hid => List.inj_on_of_nodup_map hnd hr hp hid
  have hdepn : ¬ p.dependence = none := by
    rw [hdep]
    intro hc
    exact Option.noConfusion hc
  set s1 : AState := ctx.normalPos.foldl (quotaStep ctx) a0 with hs1d
  have hkeepq : ∀ (s : AState), ∀ r ∈ ctx.normalPos,
      (quotaStep ctx s r).g.asg ctx.d p.id = s.g.asg ctx.d p.id := by
    intro s r hr
    by_cases hid : r.id = p.id
    · have hrp : r = p := huniq r hr hid
      rw [hrp]
      exact quotaStep_noguard ctx s p (fun hc => hdepn hc.1)
    · exact quotaStep_asg_id ctx s r hid
  have h1 : s1.g.asg ctx.d p.id = [] := by
    rw [hs1d, foldl_step_asg_id_frame _ _ hkeepq]
    exact h0
  have h1pb : ∀ x, x ≠ ctx.d → s1.g.asg x = a0.g.asg x := by
    intro x hx
    rw [hs1d]
    exact foldl_step_asg_other ctx
      (fun a r => quotaStep_asg_other ctx a r) ctx.normalPos a0 hx
  set s2 : AState := ctx.normalPos.foldl (depStep ctx) s1 with hs2d
  have h2 : s2.g.asg ctx.d p.id = [depSource a0.g ctx.hol ctx.d q] := by
    rcases nodup_id_split hnd hp with ⟨A, B, hl, hA, hB⟩
    rw [hs2d, hl, List.foldl_append, List.foldl_cons]
    rw [foldl_step_asg_id_frame B _ (fun s r hr => depStep_asg_id ctx s r
      (fun hc => hB (List.mem_map.mpr ⟨r, hr, hc⟩)))]
    rw [depStep_value ctx _ p q hdep]
    have hAkeep : (A.foldl (depStep ctx) s1).g.asg ctx.d p.id = [] := by
      rw [foldl_step_asg_id_frame A s1 (fun s r hr => depStep_asg_id ctx s r
        (fun hc => hA (List.mem_map.mpr ⟨r, hr, hc⟩)))]
      exact h1
    have hApb : ∀ x, x ≠ ctx.d →
        (A.foldl (depStep ctx) s1).g.asg x = a0.g.asg x := by
      intro x hx
      rw [foldl_step_asg_other ctx
        (fun a r => depStep_asg_other ctx a r) A s1 hx]
      exact h1pb x hx
    have hdsc : depSource (A.foldl (depStep ctx) s1).g ctx.hol ctx.d q =
        depSource a0.g ctx.hol ctx.d q :=
      depSource_congr _ _ ctx.hol ctx.d q (fun pb hlt =>
        congrFun (hApb pb (by omega)) q)
    rw [hAkeep, hdsc, List.nil_append]
  set s3 : AState := ctx.normalPos.foldl (weeklyStep ctx) s2 with hs3d
  have h3 : s3.g.asg ctx.d p.id = [depSource a0.g ctx.hol ctx.d q] := by
    rw [hs3d, foldl_step_asg_id_frame _ _ (fun s r hr => ?_)]
    · exact h2
    by_cases hid : r.id = p.id
    · have hrp : r = p := huniq r hr hid
      rw [hrp]
      exact weeklyStep_noguard ctx s p (fun hc => hdepn hc.1)
    · exact weeklyStep_asg_id ctx s r hid
  set s4 : AState := ctx.normalPos.foldl (indepStep ctx) s3 with hs4d
  have h4 : s4.g.asg ctx.d p.id = [depSource a0.g ctx.hol ctx.d q] := by
    rw [hs4d, foldl_step_asg_id_frame _ _ (fun s r hr => ?_)]
    · exact h3
    by_cases hid : r.id = p.id
    · have hrp : r = p := huniq r hr hid
      rw [hrp]
      exact indepStep_noguard ctx s p (fun hc => hdepn hc.1)
    · exact indepStep_asg_id ctx s r hid
  set s5 : AState := ctx.normalPos.foldl (stdStep ctx) s4 with hs5d
  have h5 : s5.g.asg ctx.d p.id = [depSource a0.g ctx.hol ctx.d q] := by
    rw [hs5d, foldl_step_asg_id_frame _ _ (fun s r hr => ?_)]
    · exact h4
    by_cases hid : r.id = p.id
    · have hrp : r = p := huniq r hr hid
      rw [hrp]
      exact stdStep_noguard ctx s p (fun hc => hdepn hc.1)
    · exact stdStep_asg_id ctx s r hid
  have hne5 : s5.g.asg ctx.d p.id ≠ [] := by
    rw [h5]
    exact List.cons_ne_nil _ _
  rw [fallbackPhase_keep ctx s5 huniq hm hne5]
  exact h5

theorem runAttempt_dep_value (ctx : DayCtx) (pres : String → List String)
    (g : GState) {p : Pos} {q : String}
    (hnd : (ctx.normalPos.map (fun r => r.id)).Nodup) (hp : p ∈ ctx.normalPos)
    (hdep : p.dependence = some q) (hm : p.allowMultiple = false)
    (hpres : pres p.id = []) :
    (runAttempt ctx pres g).1.asg ctx.d p.id =
      [depSource g ctx.hol ctx.d q] := by
  have h0 : resetAsg (ctx.normalPos.map (fun r => r.id)) ctx.d pres g.asg
      ctx.d p.id = [] := by
    unfold resetAsg
    rw [if_pos ⟨rfl, List.mem_map.mpr ⟨p, hp, rfl⟩⟩]
    exact hpres
  have hfin : depSource
      ({ g with
         asg := resetAsg (ctx.normalPos.map (fun r => r.id)) ctx.d pres g.asg } :
        GState) ctx.hol ctx.d q =
      depSource g ctx.hol ctx.d q :=
    depSource_congr _ _ _ _ _ (fun pb hlt => by
      show resetAsg _ ctx.d pres g.asg pb q = g.asg pb q
      unfold resetAsg
      exact if_neg (fun hc => absurd hc.1 (by omega)))
  unfold runAttempt
  dsimp only []
  exact (attempt_core_dep ctx _ hnd hp hdep hm h0).trans (by rw [hfin])

theorem retryLoop_dep_value (ctx : DayCtx) (pres : String → List String)
    {p : Pos} {q : String}
    (hnd : (ctx.normalPos.map (fun r => r.id)).Nodup) (hp : p ∈ ctx.normalPos)
    (hdep : p.dependence = some q) (hm : p.allowMultiple = false)
    (hpres : pres p.id = []) :
    ∀ (n : Nat), 0 < n → ∀ (g : GState),
      (retryLoop ctx pres n g).asg ctx.d p.id =
        [depSource g ctx.hol ctx.d q] := by
  intro n
  induction n with
  | zero => intro h; exact absurd h (by simp)
  | succ m ih =>
    intro _ g
    show ((if (runAttempt ctx pres g).2 then (runAttempt ctx pres g).1
      else retryLoop ctx pres m (runAttempt ctx pres g).1).asg
        ctx.d p.id) = _
    split
    · exact runAttempt_dep_value ctx pres g hnd hp hdep hm hpres
    · cases m with
      | zero =>
        show ((runAttempt ctx pres g).1.asg ctx.d p.id) = _
        exact runAttempt_dep_value ctx pres g hnd hp hdep hm hpres
      | succ k =>
        rw [ih (Nat.succ_pos k) (runAttempt ctx pres g).1]
        have hsame : depSource (runAttempt ctx pres g).1 ctx.hol ctx.d q =
            depSource g ctx.hol ctx.d q :=
          depSource_congr _ _ _ _ _ (fun pb hlt =>
            congrFun (runAttempt_asg_other ctx pres g (by omega)) q)
        rw [hsame]

theorem processDay_dep (inp : GenInput) (pre : Int → List String)
    (st : GState) (d : Int) {p : Pos} {q : String}
    (hnd : ((normalPositions inp).map (fun r => r.id)).Nodup)
    (hp : p ∈ normalPositions inp)
    (hdep : p.dependence = some q) (hm : p.allowMultiple = false)
    (hoff : isOffDay inp.hol d = false)
    (hsp : ∀ t ∈ inp.staffAll, ∀ r ∈ normalPositions inp, r.id = p.id →
      ¬ (t.special r.name).contains d = true)
    (hst : st.asg d p.id = []) :
    (processDay inp pre st d).asg d p.id = [depSource st inp.hol d q] := by
  have hpres : (specialPhase inp.staffAll (normalPositions inp)
      (weekReset st d) d).g.asg d p.id = [] := by
    rw [specialPhase_asg_id _ _ _ _ hsp, (weekReset_proj st d).1, hst]
  have hsog : ∀ pb, pb < d →
      (specialPhase inp.staffAll (normalPositions inp)
        (weekReset st d) d).g.asg pb q = st.asg pb q := by
    intro pb hlt
    rw [specialPhase_asg_other _ _ _ _ (by omega : pb ≠ d),
      (weekReset_proj st d).1]
  unfold processDay
  dsimp only []
  split
  · next hoffc =>
    rw [hoff] at hoffc
    exact Bool.noConfusion hoffc
  · rw [retryLoop_dep_value _ _ hnd hp hdep hm hpres 10 (by decide) _]
    rw [depSource_congr _ st inp.hol d q hsog]

/-- C2 (amended): a dependent position `p` (with `dependence = q`) that is
not `allowMultiple`, on a working date of the month, whose id is not
targeted by any special-assignment date, ends the run with *exactly* the
one-element list `[v]`, where `v` is the last entry of `q`'s list on the
previous business day in the final roster, or the `"未配置"` sentinel when
that prior-day list is missing or empty (regardless of `p.required`); no
later phase adds another name.  (For `allowMultiple` dependent positions the
fallback phase *can* add a further name — see the counterexample.) -/
theorem dependent_position_value (inp : GenInput) (k : Nat) (p : Pos)
    (q : String) (hk : k < inp.len)
    (hnd : ((normalPositions inp).map (fun r => r.id)).Nodup)
    (hp : p ∈ normalPositions inp)
    (hdep : p.dependence = some q) (hm : p.allowMultiple = false)
    (hwork : isOffDay inp.hol (inp.first + (k : Int)) = false)
    (hsp : ∀ t ∈ inp.staffAll, ∀ r ∈ normalPositions inp, r.id = p.id →
      ¬ (t.special r.name).contains (inp.first + (k : Int)) = true) :
    (runGenerate inp).asg (inp.first + (k : Int)) p.id =
      [depSource (runGenerate inp) inp.hol (inp.first + (k : Int)) q] := by
  set d : Int := inp.first + (k : Int) with hdd
  set stk : GState := (getDatesInMonth inp.first k).foldl
    (processDay inp (preCalcAll inp)) initGState with hstkdef
  have hdates : getDatesInMonth inp.first inp.len =
      getDatesInMonth inp.first k ++ d ::
        getDatesInMonth (d + 1) (inp.len - k - 1) := by
    conv_lhs => rw [show inp.len = k + ((inp.len - k - 1) + 1) from by omega]
    rw [getDatesInMonth_append, getDatesInMonth_cons, hdd]
  have hdA : d ∉ getDatesInMonth inp.first k := by
    intro hmem
    rcases mem_getDatesInMonth.mp hmem with ⟨j, hj, hx⟩
    rw [hdd] at hx
    omega
  have hdB : d ∉ getDatesInMonth (d + 1) (inp.len - k - 1) := by
    intro hmem
    rcases mem_getDatesInMonth.mp hmem with ⟨j, hj, hx⟩
    omega
  have hpbB : ∀ pb, pb < d →
      pb ∉ getDatesInMonth (d + 1) (inp.len - k - 1) := by
    intro pb hpb hmem
    rcases mem_getDatesInMonth.mp hmem with ⟨j, hj, hx⟩
    omega
  have hrun : runGenerate inp =
      (getDatesInMonth (d + 1) (inp.len - k - 1)).foldl
        (processDay inp (preCalcAll inp))
        (processDay inp (preCalcAll inp) stk d) := by
    unfold runGenerate
    rw [hdates, List.foldl_append, List.foldl_cons]
  have hstd : stk.asg d p.id = [] := by
    rw [hstkdef, foldl_processDay_frame inp _ _ _ hdA]
    rfl
  have hres_pb : ∀ pb, pb < d →
      (runGenerate inp).asg pb = stk.asg pb := by
    intro pb hpb
    rw [hrun, foldl_processDay_frame inp _ _ _ (hpbB pb hpb)]
    exact processDay_asg_other inp _ stk d (by omega)
  have hcongr : depSource stk inp.hol d q =
      depSource (runGenerate inp) inp.hol d q :=
    depSource_congr _ _ _ _ _ (fun pb hlt =>
      (congrFun (hres_pb pb hlt) q).symm)
  conv_lhs => rw [hrun]
  rw [foldl_processDay_frame inp _ _ _ hdB]
  rw [processDay_dep inp _ stk d hnd hp hdep hm hwork hsp hstd, hcongr]

/-- Witness for the C2 theorem: in `inpW2` the dependent position `P` has an
empty prior-day source, so day 1 ends with exactly `[depSource … "Q"]`
(which evaluates to the `"未配置"` sentinel). -/
theorem dependent_position_value_witness :
    isOffDay inpW2.hol (inpW2.first + ((0 : Nat) : Int)) = false ∧
    (runGenerate inpW2).asg (inpW2.first + ((0 : Nat) : Int)) "P" =
      [depSource (runGenerate inpW2) inpW2.hol
        (inpW2.first + ((0 : Nat) : Int)) "Q"] :=
  ⟨by decide, dependent_position_value inpW2 0
    ({ pos0 "P" "P" with dependence := some "Q" }) "Q" (by decide) (by decide)
    (by decide) (by decide) (by decide) (by decide) (by decide)⟩

/-! # Concrete counterexample theorems -/

/-- C1 counterexample: in `inpC1`, staff `X` is on paid leave on day 6, yet
`X` appears in position `A`'s assignment list for that day (pushed by the
special/override phase, which never consults the leave sets). -/
theorem leave_excluded_cex :
    (∃ s ∈ filteredStaff inpC1, s.name = "X" ∧ onLeave s 6) ∧
    "X" ∈ (runGenerate inpC1).asg 6 "A" := by
  decide

/-- C2 counterexample: in `inpC2`, the dependent, `allowMultiple` position
`P` has an empty prior-day source list, receives the `"未配置"` sentinel,
and then *also* receives staff `Y` from the fallback phase — so its value is
not the sentinel alone and the position does receive another staff member
through a later phase. -/
theorem dependent_value_cex :
    (∃ p ∈ normalPositions inpC2, p.id = "P" ∧ p.dependence = some "Q" ∧
      p.allowMultiple = true) ∧
    (runGenerate inpC2).asg 1 "P" = ["未配置", "Y"] := by
  decide

/-- C3 counterexample: in `inpC3`, staff `Z` can never be placed, so all ten
attempts of day 1 fail; each failed attempt's standard-counter increment for
`(A, X)` survives, leaving the counter at 10, although the per-position
lists were reset each attempt (the final list holds a single `X`).  Had the
claimed rollback of both counter spaces happened, the counter would be 1
(the last attempt's own increment). -/
theorem retry_rolls_back_only_lists_cex :
    (runGenerate inpC3).nrmCnt ("A", "X") = 10 ∧
    (runGenerate inpC3).asg 1 "A" = ["X"] := by
  decide

/-- C4 counterexample: in `inpC4`, `X` is the staff copied for the dependent
position `P` on day 2 (it was `Q`'s last assignee on day 1), yet the
`staffSeveral` quota phase — which runs *before* the dependency phase —
assigns the same `X` to position `S` on day 2 as well. -/
theorem quota_runs_before_dependency_cex :
    (∃ p ∈ normalPositions inpC4, p.id = "P" ∧ p.dependence = some "Q") ∧
    (∃ p ∈ normalPositions inpC4, p.id = "S" ∧ p.staffSeveral = true) ∧
    (runGenerate inpC4).asg 1 "Q" = ["X"] ∧
    (runGenerate inpC4).asg 2 "P" = ["X"] ∧
    (runGenerate inpC4).asg 2 "S" = ["X"] := by
  decide

/-- C5 counterexample: in `inpC5`, the non-`allowMultiple` position `A`
receives two staff names on day 6, both pushed by the special/override
phase (which has no capacity check). -/
theorem nonmultiple_at_most_one_cex :
    (∃ p ∈ normalPositions inpC5, p.id = "A" ∧ p.allowMultiple = false) ∧
    (runGenerate inpC5).asg 6 "A" = ["X", "Y"] := by
  decide

/-- C6, the code at the failing input: over the two consecutive weeks of
`inpC6`, `X` is recorded as the weekly-sticky choice of `W` in week 1
(key `(1, W)`) and again in week 2 (key `(8, W)`), and is *reused* on the
later days of week 2 — the standard counter stays at 2, counting only the
two first-working-day fresh picks — although the recorded value equals the
previous week's.  The guard compares against `prevWeeklyAssignments` at the
*current* week's key, which that map never contains, so it never blocks
reuse. -/
theorem weekly_guard_dead_at_failing_input :
    (runGenerate inpC6).weekly (8, "W") = some "X" ∧
    (runGenerate inpC6).prevWeekly (1, "W") = some "X" ∧
    (runGenerate inpC6).asg 9 "W" = ["X"] ∧
    (runGenerate inpC6).nrmCnt ("W", "X") = 2 := by
  decide

/-! # Witnesses -/

/-- Witness for C8: a concrete Saturday on which the hypothesis holds and
the short-circuit conclusion is obtained from the theorem. -/
theorem weekend_holiday_short_circuit_witness :
    isOffDay inpC5.hol 6 = true ∧
    (processDay inpC5 (fun _ => []) initGState 6 =
      (specialPhase inpC5.staffAll (normalPositions inpC5)
        (weekReset initGState 6) 6).g ∧
     (processDay inpC5 (fun _ => []) initGState 6).nrmCnt = initGState.nrmCnt ∧
     (processDay inpC5 (fun _ => []) initGState 6).sevCnt = initGState.sevCnt ∧
     (processDay inpC5 (fun _ => []) initGState 6).ridx = initGState.ridx) :=
  ⟨by decide,
   weekend_holiday_short_circuit inpC5 (fun _ => []) initGState 6 (by decide)⟩

/-- Witness for C10: in `nctx10`, the only candidate department is `生理`,
which is selected for both night positions of day 1; the theorem applies at
indices 0 and 1. -/
theorem night_department_selected_once_witness :
    (0 : Nat) < 1 ∧
    (assignNightShift nctx10 1 initN).2.2.get? 0 = some (some "生理") ∧
    (assignNightShift nctx10 1 initN).2.2.get? 1 = some (some "生理") ∧
    "生理" = "生理" :=
  ⟨Nat.zero_lt_one, by decide, by decide,
   night_department_selected_once nctx10 1 initN 0 1 "生理" Nat.zero_lt_one
     (by decide) (by decide)⟩

end WS
